import Mathlib

/-!
Verification of the LRU cache (`src/lru.rs`) and the heap routine
(`src/heap.rs`) of the dsa-rs repository.

The Rust cache couples an intrusive doubly-linked list of raw-pointer nodes
with a `HashMap` from keys to node pointers.  The shallow embedding models the
node heap explicitly: addresses are naturals handed out by a fresh counter
(`Box::into_raw` = allocation of a fresh address), `next`/`prev` pointers are
optional addresses, and every pointer dereference goes through the store, so a
dereference of a never-allocated address is a `none` outcome.  Freeing keeps
the cell contents in the store, as machine memory does when the allocator has
not reused the block; a second, instrumented model (`MemC`) additionally
tracks liveness in order to detect dereferences of freed pointers.
-/

set_option autoImplicit false

namespace DSA

/-- Keys are byte sequences (`Vec<u8>` in the source), modelled as lists of
naturals. -/
abbrev Key := List Nat

/-- `Node<T>` from `src/lru.rs`: a value plus raw `next`/`prev` pointers
(`Option<NonNull<Node<T>>>`), modelled as optional heap addresses. -/
structure Node (T : Type) where
  val : T
  next : Option Nat
  prev : Option Nat
deriving DecidableEq

/-- Association-list lookup by key, used both for the modelled node heap and
for the `HashMap` index of the cache. -/
def lookupA {κ α : Type} [DecidableEq κ] : List (κ × α) → κ → Option α
  | [], _ => none
  | (b, x) :: rest, a => if a = b then some x else lookupA rest a

/-- Association-list pointwise update, used to model a store write. -/
def updA {κ α : Type} [DecidableEq κ] : List (κ × α) → κ → α → List (κ × α)
  | [], _, _ => []
  | (b, x) :: rest, a, y => if a = b then (b, y) :: rest else (b, x) :: updA rest a y

/-- The heap of list nodes: a store of allocated cells addressed by `Nat`, plus
a fresh-address counter.  Freeing a cell leaves its contents in the store
(machine memory is not erased by `drop`), matching what the running program
observes as long as the allocator has not recycled the block; the fresh counter
never re-issues an address, which is sound because the verified cache invariant
ties every reachable handle to a live node. -/
structure Mem (T : Type) where
  store : List (Nat × Node T)
  fresh : Nat
deriving DecidableEq

/-- Dereference a raw pointer: `none` iff the address was never allocated. -/
def Mem.read {T : Type} (σ : Mem T) (a : Nat) : Option (Node T) :=
  lookupA σ.store a

/-- Write through a raw pointer (no-op on a never-allocated address; all
verified code paths only write to allocated addresses). -/
def Mem.write {T : Type} (σ : Mem T) (a : Nat) (nd : Node T) : Mem T :=
  ⟨updA σ.store a nd, σ.fresh⟩

/-- `Box::new` + `Box::into_raw`: allocate a fresh cell, return its address. -/
def Mem.alloc {T : Type} (σ : Mem T) (nd : Node T) : Nat × Mem T :=
  (σ.fresh, ⟨(σ.fresh, nd) :: σ.store, σ.fresh + 1⟩)

/-- The payload stored at an address (the `val` field), ignoring the links. -/
def valAt {T : Type} (σ : Mem T) (a : Nat) : Option T :=
  (σ.read a).map Node.val

/-- `LinkedList<T>`'s own fields: `length`, `head`, `tail`.  The nodes live in
a `Mem` value threaded through every operation. -/
structure LinkedList where
  length : Nat
  head : Option Nat
  tail : Option Nat
deriving DecidableEq

/-- `LinkedList::new`. -/
def LinkedList.new : LinkedList := ⟨0, none, none⟩

/-- `LinkedList::insert_front_raw`: link the node at `a` in as the new head.
Field order follows the source: set `a.next` to the old head and `a.prev` to
null, then either set `tail` (empty list) or the old head's `prev`, then bump
`head` and `length`. -/
def LinkedList.insert_front_raw {T : Type} (σ : Mem T) (L : LinkedList) (a : Nat) :
    Option (Mem T × LinkedList) := do
  let nd ← σ.read a
  let σ1 := σ.write a { nd with next := L.head, prev := none }
  match L.head with
  | none => some (σ1, ⟨L.length + 1, some a, some a⟩)
  | some h => do
    let hd ← σ1.read h
    some (σ1.write h { hd with prev := some a }, ⟨L.length + 1, some a, L.tail⟩)

/-- `LinkedList::remove`: splice the node at `a` out (`prev.next := a.next`,
`next.prev := a.prev`, with `head`/`tail` updated at the endpoints), decrement
`length`, and return the node's value.  `Box::from_raw` then frees the node;
in this model the cell contents stay in the store (see `Mem`). -/
def LinkedList.remove {T : Type} (σ : Mem T) (L : LinkedList) (a : Nat) :
    Option (T × Mem T × LinkedList) := do
  let nd ← σ.read a
  let (σ1, head1) ←
    match nd.prev with
    | some p => do
      let pn ← σ.read p
      some (σ.write p { pn with next := nd.next }, L.head)
    | none => some (σ, nd.next)
  let (σ2, tail2) ←
    match nd.next with
    | some q => do
      let qn ← σ1.read q
      some (σ1.write q { qn with prev := nd.prev }, L.tail)
    | none => some (σ1, nd.prev)
  some (nd.val, σ2, ⟨L.length - 1, head1, tail2⟩)

/-- `LinkedList::remove_tail`: on a non-empty list, unlink and free the tail
node and return its value; on an empty list return `none` (the Rust
`self.tail.map(...)`). -/
def LinkedList.remove_tail {T : Type} (σ : Mem T) (L : LinkedList) :
    Option (Option T × Mem T × LinkedList) :=
  match L.tail with
  | none => some (none, σ, L)
  | some t => do
    let nd ← σ.read t
    match nd.prev with
    | some t2 => do
      let n2 ← σ.read t2
      some (some nd.val, σ.write t2 { n2 with next := none },
        ⟨L.length - 1, L.head, some t2⟩)
    | none => some (some nd.val, σ, ⟨L.length - 1, none, none⟩)

/-- `LinkedList::reinsert_front`: `remove` followed by `insert_front_raw` on
the same handle. -/
def LinkedList.reinsert_front {T : Type} (σ : Mem T) (L : LinkedList) (a : Nat) :
    Option (Mem T × LinkedList) := do
  let (_, σ1, L1) ← LinkedList.remove σ L a
  LinkedList.insert_front_raw σ1 L1 a

/-- The address sequence visited by `LinkedList::iter`: start at `head`,
follow `next` pointers, with the stored `length` as the step budget. -/
def iterAddrs {T : Type} (σ : Mem T) : Nat → Option Nat → List Nat
  | 0, _ => []
  | _ + 1, none => []
  | fuel + 1, some a =>
    a :: (match σ.read a with
          | none => []
          | some nd => iterAddrs σ fuel nd.next)

/-- `LRUEntry<T>`: key bytes plus the cached value. -/
structure LRUEntry (V : Type) where
  key : Key
  value : V
deriving DecidableEq

/-- `LRUCache<T>`: the `HashMap` index (modelled as an association list, which
the verified invariant keeps duplicate-free), the recency list, the node heap
and the capacity. -/
structure LRUCache (V : Type) where
  mem : Mem (LRUEntry V)
  map : List (Key × Nat)
  list : LinkedList
  capacity : Nat
deriving DecidableEq

/-- `HashMap::insert`: bind `k`, dropping any previous binding of `k`. -/
def hmInsert {α : Type} (m : List (Key × α)) (k : Key) (x : α) : List (Key × α) :=
  (k, x) :: m.filter (fun p => decide (p.1 ≠ k))

/-- `HashMap::remove`. -/
def hmRemove {α : Type} (m : List (Key × α)) (k : Key) : List (Key × α) :=
  m.filter (fun p => decide (p.1 ≠ k))

/-- `LRUCache::new`: accepts any capacity, including `0`, with no error path. -/
def LRUCache.new {V : Type} (capacity : Nat) : LRUCache V :=
  ⟨⟨[], 0⟩, [], LinkedList.new, capacity⟩

/-- `LRUCache::insert`.  A fresh node holding `(key, value)` is allocated up
front.  On a hit, the old node is removed (its value is the result), the new
node becomes the head and the index is repointed.  On a miss, if
`length >= capacity` the tail is evicted (if the list is non-empty) and its
key is removed from the index; the new node then becomes the head. -/
def LRUCache.insert {V : Type} (c : LRUCache V) (key : Key) (value : V) :
    Option (Option V × LRUCache V) :=
  let r := c.mem.alloc ⟨⟨key, value⟩, none, none⟩
  let a := r.1
  let σ0 := r.2
  match lookupA c.map key with
  | some entry => do
    let (old, σ1, L1) ← LinkedList.remove σ0 c.list entry
    let (σ2, L2) ← LinkedList.insert_front_raw σ1 L1 a
    some (some old.value, ⟨σ2, hmInsert c.map key a, L2, c.capacity⟩)
  | none =>
    if c.list.length ≥ c.capacity then do
      let (ev, σ1, L1) ← LinkedList.remove_tail σ0 c.list
      let m1 := match ev with | some e => hmRemove c.map e.key | none => c.map
      let v1 := match ev with | some e => some e.value | none => none
      let (σ2, L2) ← LinkedList.insert_front_raw σ1 L1 a
      some (v1, ⟨σ2, hmInsert m1 key a, L2, c.capacity⟩)
    else do
      let (σ2, L2) ← LinkedList.insert_front_raw σ0 c.list a
      some (none, ⟨σ2, hmInsert c.map key a, L2, c.capacity⟩)

/-- `LRUCache::get`: on a hit, read the value through the stored handle,
refresh recency via `reinsert_front`, and return the value; on a miss return
`none` and leave the cache untouched. -/
def LRUCache.get {V : Type} (c : LRUCache V) (key : Key) :
    Option (Option V × LRUCache V) :=
  match lookupA c.map key with
  | some a => do
    let nd ← c.mem.read a
    let (σ2, L2) ← LinkedList.reinsert_front c.mem c.list a
    some (some nd.val.value, ⟨σ2, c.map, L2, c.capacity⟩)
  | none => some (none, c)

/-- A client operation on the cache. -/
inductive Op (V : Type) where
  | get (k : Key)
  | ins (k : Key) (v : V)
deriving DecidableEq

/-- Run a sequence of operations, threading the cache state.  `none` would
mean some operation dereferenced a never-allocated address; the invariant
proved below shows this cannot happen from reachable states. -/
def runOps {V : Type} (c : LRUCache V) : List (Op V) → Option (LRUCache V)
  | [] => some c
  | op :: rest => do
    let c' ←
      match op with
      | .get k => (c.get k).map Prod.snd
      | .ins k v => (c.insert k v).map Prod.snd
    runOps c' rest

/-- The addresses of the cache's nodes in recency order (head first). -/
def LRUCache.addrs {V : Type} (c : LRUCache V) : List Nat :=
  iterAddrs c.mem c.list.length c.list.head

/-- The key stored at address `a` (meaningful when `a` is allocated). -/
def keyAt {V : Type} (σ : Mem (LRUEntry V)) (a : Nat) : Key :=
  ((σ.read a).map (fun nd => nd.val.key)).getD []

/-- The `(key, value)` pairs held by the cache in recency order, head (most
recently used) first — the observable content, read off as `LinkedList::iter`
would. -/
def LRUCache.entriesInOrder {V : Type} (c : LRUCache V) : List (Key × V) :=
  c.addrs.filterMap (fun a => (valAt c.mem a).map (fun e => (e.key, e.value)))

/-- Result value of `insert` (first component), if the operation completed. -/
def insRes {V : Type} (c : LRUCache V) (k : Key) (v : V) : Option (Option V) :=
  (c.insert k v).map Prod.fst

/-- Cache state after `insert`, if the operation completed. -/
def insCache {V : Type} (c : LRUCache V) (k : Key) (v : V) : Option (LRUCache V) :=
  (c.insert k v).map Prod.snd

/-- Result value of `get` (first component), if the operation completed. -/
def getRes {V : Type} (c : LRUCache V) (k : Key) : Option (Option V) :=
  (c.get k).map Prod.fst

/-- Cache state after `get`, if the operation completed. -/
def getCache {V : Type} (c : LRUCache V) (k : Key) : Option (LRUCache V) :=
  (c.get k).map Prod.snd

end DSA

namespace DSA.HeapSort

/-- `Vec::swap` on the modelled vector (identity out of bounds; every call
site below stays in bounds). -/
def swapL (l : List Nat) (i j : Nat) : List Nat :=
  match l.get? i, l.get? j with
  | some x, some y => (l.set i y).set j x
  | _, _ => l

/-- The `smallest` index computed by one iteration of `Heap::sift_down`'s
loop body: start from `i`, move to a child `< e` whose element is smaller
than the current candidate's (the source compares with `>` from the parent
side). -/
def pick (data : List Nat) (i e : Nat) : Nat :=
  if 2 * i + 1 < e ∧ data.getD i 0 > data.getD (2 * i + 1) 0 then
    if 2 * i + 2 < e ∧ data.getD (2 * i + 1) 0 > data.getD (2 * i + 2) 0 then 2 * i + 2
    else 2 * i + 1
  else
    if 2 * i + 2 < e ∧ data.getD i 0 > data.getD (2 * i + 2) 0 then 2 * i + 2
    else i

theorem pick_lt {data : List Nat} {i e : Nat} (h : pick data i e ≠ i) :
    i < pick data i e := by
  unfold pick at h ⊢
  split_ifs at h ⊢ <;> omega

/-- `Heap::sift_down` from `src/heap.rs`: note the loop guard `i < end` and
the child bound checks `2*i+1 < end`, `2*i+2 < end` — `end` is treated as an
exclusive bound. -/
def sift_down (data : List Nat) (i e : Nat) : List Nat :=
  if i < e then
    if h : pick data i e = i then data
    else sift_down (swapL data (pick data i e) i) (pick data i e) e
  else data
termination_by e - i
decreasing_by
  have := pick_lt h
  omega

/-- `Heap::build_max_heap` from `src/heap.rs`: heapify pass with
`sift_down(_, i, l-1)` for `i` in `(0..l/2).rev()`, then the sort-down pass
`swap(0, l-1-i); sift_down(_, 0, l-1-i)` for `i` in `0..l-1`, returning the
final vector. -/
def build_max_heap (data : List Nat) : List Nat :=
  let l := data.length
  let d1 := ((List.range (l / 2)).reverse).foldl
    (fun d i => sift_down d i (l - 1)) data
  (List.range (l - 1)).foldl
    (fun d i => sift_down (swapL d 0 (l - 1 - i)) 0 (l - 1 - i)) d1

end DSA.HeapSort

namespace DSA

/-- Instrumented node heap for the handle-liveness analysis: identical to
`Mem`, but the set of live (not yet freed) allocations is tracked, so that a
dereference of a freed pointer is detected (`none`) instead of silently
reading the stale cell. -/
structure MemC (T : Type) where
  store : List (Nat × Node T)
  live : List Nat
  fresh : Nat
deriving DecidableEq

/-- Checked dereference: fails on freed or never-allocated addresses. -/
def MemC.read {T : Type} (σ : MemC T) (a : Nat) : Option (Node T) :=
  if a ∈ σ.live then lookupA σ.store a else none

/-- Checked write: fails on freed or never-allocated addresses. -/
def MemC.write {T : Type} (σ : MemC T) (a : Nat) (nd : Node T) : Option (MemC T) :=
  if a ∈ σ.live then some ⟨updA σ.store a nd, σ.live, σ.fresh⟩ else none

def MemC.alloc {T : Type} (σ : MemC T) (nd : Node T) : Nat × MemC T :=
  (σ.fresh, ⟨(σ.fresh, nd) :: σ.store, σ.fresh :: σ.live, σ.fresh + 1⟩)

/-- `Box::from_raw` + drop of the box: the allocation stops being live. -/
def MemC.free {T : Type} (σ : MemC T) (a : Nat) : MemC T :=
  ⟨σ.store, σ.live.erase a, σ.fresh⟩

/-- `insert_front_raw` under the liveness-checked heap. -/
def insert_front_rawC {T : Type} (σ : MemC T) (L : LinkedList) (a : Nat) :
    Option (MemC T × LinkedList) := do
  let nd ← σ.read a
  let σ1 ← σ.write a { nd with next := L.head, prev := none }
  match L.head with
  | none => some (σ1, ⟨L.length + 1, some a, some a⟩)
  | some h => do
    let hd ← σ1.read h
    let σ2 ← σ1.write h { hd with prev := some a }
    some (σ2, ⟨L.length + 1, some a, L.tail⟩)

/-- `remove` under the liveness-checked heap; the final `Box::from_raw` frees
the node, so its handle stops being live. -/
def removeC {T : Type} (σ : MemC T) (L : LinkedList) (a : Nat) :
    Option (T × MemC T × LinkedList) := do
  let nd ← σ.read a
  let (σ1, head1) ←
    match nd.prev with
    | some p => do
      let pn ← σ.read p
      let σ' ← σ.write p { pn with next := nd.next }
      some (σ', L.head)
    | none => some (σ, nd.next)
  let (σ2, tail2) ←
    match nd.next with
    | some q => do
      let qn ← σ1.read q
      let σ' ← σ1.write q { qn with prev := nd.prev }
      some (σ', L.tail)
    | none => some (σ1, nd.prev)
  some (nd.val, σ2.free a, ⟨L.length - 1, head1, tail2⟩)

/-- `remove_tail` under the liveness-checked heap. -/
def remove_tailC {T : Type} (σ : MemC T) (L : LinkedList) :
    Option (Option T × MemC T × LinkedList) :=
  match L.tail with
  | none => some (none, σ, L)
  | some t => do
    let nd ← σ.read t
    match nd.prev with
    | some t2 => do
      let n2 ← σ.read t2
      let σ' ← σ.write t2 { n2 with next := none }
      some (some nd.val, σ'.free t, ⟨L.length - 1, L.head, some t2⟩)
    | none => some (some nd.val, σ.free t, ⟨L.length - 1, none, none⟩)

/-- `reinsert_front` under the liveness-checked heap: exactly as in the
source, `remove` (which frees the node) followed by `insert_front_raw` on the
same, now dangling, handle. -/
def reinsert_frontC {T : Type} (σ : MemC T) (L : LinkedList) (a : Nat) :
    Option (MemC T × LinkedList) := do
  let (_, σ1, L1) ← removeC σ L a
  insert_front_rawC σ1 L1 a

/-- `LRUCache` over the liveness-checked heap. -/
structure LRUCacheC (V : Type) where
  mem : MemC (LRUEntry V)
  map : List (Key × Nat)
  list : LinkedList
  capacity : Nat
deriving DecidableEq

def LRUCacheC.new {V : Type} (capacity : Nat) : LRUCacheC V :=
  ⟨⟨[], [], 0⟩, [], LinkedList.new, capacity⟩

/-- `LRUCache::insert` under the liveness-checked heap. -/
def LRUCacheC.insert {V : Type} (c : LRUCacheC V) (key : Key) (value : V) :
    Option (Option V × LRUCacheC V) :=
  let (a, σ0) := c.mem.alloc ⟨⟨key, value⟩, none, none⟩
  match lookupA c.map key with
  | some entry => do
    let (old, σ1, L1) ← removeC σ0 c.list entry
    let (σ2, L2) ← insert_front_rawC σ1 L1 a
    some (some old.value, ⟨σ2, hmInsert c.map key a, L2, c.capacity⟩)
  | none =>
    if c.list.length ≥ c.capacity then do
      let (ev, σ1, L1) ← remove_tailC σ0 c.list
      let m1 := match ev with | some e => hmRemove c.map e.key | none => c.map
      let v1 := match ev with | some e => some e.value | none => none
      let (σ2, L2) ← insert_front_rawC σ1 L1 a
      some (v1, ⟨σ2, hmInsert m1 key a, L2, c.capacity⟩)
    else do
      let (σ2, L2) ← insert_front_rawC σ0 c.list a
      some (none, ⟨σ2, hmInsert c.map key a, L2, c.capacity⟩)

/-- `LRUCache::get` under the liveness-checked heap. -/
def LRUCacheC.get {V : Type} (c : LRUCacheC V) (key : Key) :
    Option (Option V × LRUCacheC V) :=
  match lookupA c.map key with
  | some a => do
    let nd ← c.mem.read a
    let (σ2, L2) ← reinsert_frontC c.mem c.list a
    some (some nd.val.value, ⟨σ2, c.map, L2, c.capacity⟩)
  | none => some (none, c)

end DSA

namespace DSA

/-! ### Association-list and store lemmas -/

theorem lookupA_eq_none_iff {κ α : Type} [DecidableEq κ] {m : List (κ × α)} {k : κ} :
    lookupA m k = none ↔ k ∉ m.map Prod.fst := by
  induction m with
  | nil => simp [lookupA]
  | cons p rest ih =>
    obtain ⟨b, x⟩ := p
    by_cases hk : k = b <;> simp [lookupA, hk, ih]

theorem mem_of_lookupA_eq_some {κ α : Type} [DecidableEq κ] {m : List (κ × α)} {k : κ}
    {x : α} (h : lookupA m k = some x) : (k, x) ∈ m := by
  induction m with
  | nil => simp [lookupA] at h
  | cons p rest ih =>
    obtain ⟨b, y⟩ := p
    by_cases hk : k = b
    · subst hk
      simp [lookupA] at h
      simp [h]
    · simp [lookupA, hk] at h
      simp [ih h]

theorem lookupA_eq_some_of_mem {κ α : Type} [DecidableEq κ] {m : List (κ × α)} {k : κ}
    {x : α} (hnd : (m.map Prod.fst).Nodup) (h : (k, x) ∈ m) : lookupA m k = some x := by
  induction m with
  | nil => simp at h
  | cons p rest ih =>
    obtain ⟨b, y⟩ := p
    rw [List.map_cons, List.nodup_cons] at hnd
    rcases List.mem_cons.mp h with heq | hmem
    · cases heq
      simp [lookupA]
    · have hk : k ≠ b := by
        rintro rfl
        have hm : (k, x).1 ∈ List.map Prod.fst rest := List.mem_map_of_mem Prod.fst hmem
        exact hnd.1 hm
      simp [lookupA, hk, ih hnd.2 hmem]

theorem lookupA_updA_ne {κ α : Type} [DecidableEq κ] {m : List (κ × α)} {a c : κ}
    {y : α} (h : c ≠ a) : lookupA (updA m a y) c = lookupA m c := by
  induction m with
  | nil => simp [updA]
  | cons p rest ih =>
    obtain ⟨b, x⟩ := p
    by_cases hab : a = b
    · subst hab
      simp [updA, lookupA, h, ih]
    · by_cases hcb : c = b <;> simp [updA, lookupA, hab, hcb, ih]

theorem lookupA_updA_self {κ α : Type} [DecidableEq κ] {m : List (κ × α)} {a : κ}
    {y : α} (h : (lookupA m a).isSome) : lookupA (updA m a y) a = some y := by
  induction m with
  | nil => simp [lookupA] at h
  | cons p rest ih =>
    obtain ⟨b, x⟩ := p
    by_cases hab : a = b
    · subst hab
      simp [updA, lookupA]
    · simp [updA, lookupA, hab] at h ⊢
      exact ih h

theorem Mem.read_write_ne {T : Type} (σ : Mem T) {a c : Nat} (nd : Node T)
    (h : c ≠ a) : (σ.write a nd).read c = σ.read c :=
  lookupA_updA_ne h

theorem Mem.read_write_self {T : Type} (σ : Mem T) {a : Nat} (nd : Node T)
    (h : (σ.read a).isSome) : (σ.write a nd).read a = some nd :=
  lookupA_updA_self h

theorem Mem.fresh_write {T : Type} (σ : Mem T) (a : Nat) (nd : Node T) :
    (σ.write a nd).fresh = σ.fresh := rfl

theorem Mem.read_alloc_self {T : Type} (σ : Mem T) (nd : Node T) :
    (σ.alloc nd).2.read σ.fresh = some nd := by
  simp [Mem.alloc, Mem.read, lookupA]

theorem Mem.read_alloc_ne {T : Type} (σ : Mem T) (nd : Node T) {c : Nat}
    (h : c ≠ σ.fresh) : (σ.alloc nd).2.read c = σ.read c := by
  simp [Mem.alloc, Mem.read, lookupA, h]

theorem valAt_write_keep {T : Type} {σ : Mem T} {a : Nat} {nd : Node T}
    (h : σ.read a = some nd) (nx pv : Option Nat) (x : Nat) :
    valAt (σ.write a ⟨nd.val, nx, pv⟩) x = valAt σ x := by
  by_cases hx : x = a
  · subst hx
    rw [valAt, valAt, σ.read_write_self ⟨nd.val, nx, pv⟩ (by simp [h]), h]
    rfl
  · rw [valAt, valAt, σ.read_write_ne _ hx]

/-! ### The doubly-linked chain predicate -/

/-- The forward pointer out of a block: the head of `γ` if non-empty, else the
continuation `n`. -/
def nextOf (γ : List Nat) (n : Option Nat) : Option Nat :=
  match γ with
  | [] => n
  | b :: _ => some b

/-- The backward pointer into a block from its right end: the last element of
`γ` if non-empty, else the predecessor `p`. -/
def lastOf (p : Option Nat) (γ : List Nat) : Option Nat :=
  match γ.getLast? with
  | some t => some t
  | none => p

@[simp] theorem nextOf_nil {n : Option Nat} : nextOf [] n = n := rfl

@[simp] theorem nextOf_cons {b : Nat} {γ : List Nat} {n : Option Nat} :
    nextOf (b :: γ) n = some b := rfl

theorem nextOf_append {γ₁ γ₂ : List Nat} {n : Option Nat} :
    nextOf (γ₁ ++ γ₂) n = nextOf γ₁ (nextOf γ₂ n) := by
  cases γ₁ <;> cases γ₂ <;> simp [nextOf]

theorem nextOf_eq_head? {γ : List Nat} : nextOf γ none = γ.head? := by
  cases γ <;> simp [nextOf]

@[simp] theorem lastOf_nil {p : Option Nat} : lastOf p [] = p := rfl

theorem lastOf_concat {p : Option Nat} {γ : List Nat} {t : Nat} :
    lastOf p (γ ++ [t]) = some t := by
  simp [lastOf]

theorem lastOf_cons {p : Option Nat} {a : Nat} {γ : List Nat} :
    lastOf p (a :: γ) = lastOf (some a) γ := by
  cases γ with
  | nil => simp [lastOf]
  | cons b rest =>
    have h : (b :: rest).getLast?.isSome := by
      rw [List.getLast?_isSome]
      simp
    obtain ⟨t, ht⟩ := Option.isSome_iff_exists.mp h
    simp [lastOf, List.getLast?_cons_cons, ht]

/-- `dlist σ p γ n`: the addresses `γ` form a consecutive doubly-linked chain
in `σ` whose first node has `prev = p` and whose last node has `next = n`. -/
def dlist {T : Type} (σ : Mem T) : Option Nat → List Nat → Option Nat → Prop
  | _, [], _ => True
  | p, a :: rest, n =>
    ∃ nd, σ.read a = some nd ∧ nd.prev = p ∧ nd.next = nextOf rest n ∧
      dlist σ (some a) rest n

@[simp] theorem dlist_nil {T : Type} {σ : Mem T} {p n : Option Nat} :
    dlist σ p [] n := trivial

theorem dlist_cons {T : Type} {σ : Mem T} {p n : Option Nat} {a : Nat}
    {rest : List Nat} :
    dlist σ p (a :: rest) n ↔
      ∃ nd, σ.read a = some nd ∧ nd.prev = p ∧ nd.next = nextOf rest n ∧
        dlist σ (some a) rest n := Iff.rfl

theorem dlist_congr {T : Type} {σ σ' : Mem T} {p n : Option Nat} {γ : List Nat}
    (hr : ∀ a ∈ γ, σ'.read a = σ.read a) (h : dlist σ p γ n) : dlist σ' p γ n := by
  induction γ generalizing p with
  | nil => trivial
  | cons a rest ih =>
    obtain ⟨nd, h1, h2, h3, h4⟩ := h
    exact ⟨nd, (hr a (by simp)).trans h1, h2, h3,
      ih (fun b hb => hr b (by simp [hb])) h4⟩

theorem dlist_append {T : Type} {σ : Mem T} {p n : Option Nat} {γ₁ γ₂ : List Nat} :
    dlist σ p (γ₁ ++ γ₂) n ↔
      dlist σ p γ₁ (nextOf γ₂ n) ∧ dlist σ (lastOf p γ₁) γ₂ n := by
  induction γ₁ generalizing p with
  | nil => simp
  | cons a rest ih =>
    constructor
    · rintro ⟨nd, h1, h2, h3, h4⟩
      obtain ⟨h5, h6⟩ := ih.mp h4
      refine ⟨⟨nd, h1, h2, ?_, h5⟩, ?_⟩
      · rw [h3, List.append_eq, nextOf_append]
      · rwa [lastOf_cons]
    · rintro ⟨⟨nd, h1, h2, h3, h4⟩, h5⟩
      rw [lastOf_cons] at h5
      exact ⟨nd, h1, h2, by rw [h3, List.append_eq, nextOf_append], ih.mpr ⟨h4, h5⟩⟩

theorem nextOf_concat {γ : List Nat} {t : Nat} {n : Option Nat} :
    nextOf (γ ++ [t]) n = nextOf γ (some t) := by
  rw [nextOf_append]
  rfl

/-- Rewriting the `next` field of the last node of a chain retargets the
chain's outgoing pointer and nothing else. -/
theorem dlist_set_last_next {T : Type} {σ : Mem T} {p n n' : Option Nat}
    {γ : List Nat} {ℓ : Nat} {ndℓ : Node T}
    (hnd : σ.read ℓ = some ndℓ) (hγ : (γ ++ [ℓ]).Nodup)
    (hd : dlist σ p (γ ++ [ℓ]) n) :
    dlist (σ.write ℓ { ndℓ with next := n' }) p (γ ++ [ℓ]) n' := by
  induction γ generalizing p with
  | nil =>
    obtain ⟨nd, h1, h2, _, _⟩ := hd
    have he : ndℓ = nd := by
      rw [hnd] at h1
      exact Option.some.inj h1
    subst he
    exact ⟨{ ndℓ with next := n' }, σ.read_write_self _ (by simp [hnd]), h2, rfl,
      trivial⟩
  | cons a γ' ih =>
    obtain ⟨nd, h1, h2, h3, h4⟩ := hd
    have hmem : a ∉ γ' ++ [ℓ] := by
      rw [List.cons_append, List.nodup_cons] at hγ
      exact hγ.1
    have hne : a ≠ ℓ := by
      intro he
      exact hmem (by simp [he])
    refine ⟨nd, (σ.read_write_ne _ hne).trans h1, h2, ?_, ?_⟩
    · show nd.next = nextOf (γ' ++ [ℓ]) n'
      have h3' : nd.next = nextOf (γ' ++ [ℓ]) n := h3
      rw [nextOf_concat] at h3'
      rw [nextOf_concat]
      exact h3'
    · have h4' : dlist σ (some a) (γ' ++ [ℓ]) n := h4
      exact ih (by rw [List.cons_append, List.nodup_cons] at hγ; exact hγ.2) h4'

/-- Rewriting the `prev` field of the first node of a chain retargets the
chain's incoming pointer and nothing else. -/
theorem dlist_set_head_prev {T : Type} {σ : Mem T} {p p' n : Option Nat}
    {b : Nat} {rest : List Nat} {ndb : Node T}
    (hnd : σ.read b = some ndb) (hb : b ∉ rest)
    (hd : dlist σ p (b :: rest) n) :
    dlist (σ.write b { ndb with prev := p' }) p' (b :: rest) n := by
  obtain ⟨nd, h1, h2, h3, h4⟩ := hd
  have he : ndb = nd := by
    rw [hnd] at h1
    exact Option.some.inj h1
  subst he
  refine ⟨{ ndb with prev := p' }, σ.read_write_self _ (by simp [hnd]), rfl, h3, ?_⟩
  exact dlist_congr (fun x hx => σ.read_write_ne _ (fun he => hb (he ▸ hx))) h4

/-! ### The list representation invariant -/

/-- `Rep σ L γ`: the `LinkedList` header `L` together with the store `σ`
represents exactly the address sequence `γ` (head first): the nodes of `γ`
form a doubly-linked chain closed at both ends, the header's `head`, `tail`
and `length` agree with `γ`, all addresses are distinct, and all addresses
were actually allocated (below the fresh counter). -/
structure Rep {T : Type} (σ : Mem T) (L : LinkedList) (γ : List Nat) : Prop where
  chain : dlist σ none γ none
  hd : L.head = γ.head?
  tl : L.tail = γ.getLast?
  len : L.length = γ.length
  nodup : γ.Nodup
  bound : ∀ a ∈ γ, a < σ.fresh

theorem Rep.congr {T : Type} {σ σ' : Mem T} {L : LinkedList} {γ : List Nat}
    (h : Rep σ L γ) (hr : ∀ a ∈ γ, σ'.read a = σ.read a)
    (hf : σ'.fresh = σ.fresh) : Rep σ' L γ :=
  ⟨dlist_congr hr h.chain, h.hd, h.tl, h.len, h.nodup, fun a ha => hf ▸ h.bound a ha⟩

/-- Allocating a fresh node does not disturb an existing representation. -/
theorem Rep.alloc {T : Type} {σ : Mem T} {L : LinkedList} {γ : List Nat}
    (h : Rep σ L γ) (nd : Node T) : Rep (σ.alloc nd).2 L γ := by
  refine ⟨dlist_congr (fun a ha => σ.read_alloc_ne nd ?_) h.chain, h.hd, h.tl, h.len,
    h.nodup, fun a ha => ?_⟩
  · exact Nat.ne_of_lt (h.bound a ha)
  · have := h.bound a ha
    simp only [Mem.alloc]
    omega

theorem valAt_alloc_ne {T : Type} {σ : Mem T} (nd : Node T) {c : Nat}
    (h : c ≠ σ.fresh) : valAt (σ.alloc nd).2 c = valAt σ c := by
  rw [valAt, valAt, σ.read_alloc_ne nd h]

theorem valAt_alloc_self {T : Type} (σ : Mem T) (nd : Node T) :
    valAt (σ.alloc nd).2 σ.fresh = some nd.val := by
  rw [valAt, σ.read_alloc_self nd]
  rfl

/-- Specification of `LinkedList::insert_front_raw` on a represented list: the
allocated node at `a` (not currently linked) becomes the new head. -/
theorem insert_front_raw_spec {T : Type} {σ : Mem T} {L : LinkedList}
    {γ : List Nat} {a : Nat} {nd : Node T}
    (hrep : Rep σ L γ) (hread : σ.read a = some nd) (hnotin : a ∉ γ)
    (hlt : a < σ.fresh) :
    ∃ σ' L', LinkedList.insert_front_raw σ L a = some (σ', L') ∧
      Rep σ' L' (a :: γ) ∧ (∀ x, valAt σ' x = valAt σ x) ∧ σ'.fresh = σ.fresh ∧
      L'.length = L.length + 1 ∧ L'.head = some a := by
  cases γ with
  | nil =>
    have hh : L.head = none := by simpa using hrep.hd
    have hs1 : (σ.write a { nd with next := none, prev := none }).read a =
        some { nd with next := none, prev := none } :=
      Mem.read_write_self _ _ (by simp [hread])
    refine ⟨σ.write a { nd with next := none, prev := none },
      ⟨L.length + 1, some a, some a⟩, ?_, ?_, ?_, rfl, rfl, rfl⟩
    · simp only [LinkedList.insert_front_raw, hread, hh, Option.bind_eq_bind,
        Option.some_bind]
    · refine ⟨⟨{ nd with next := none, prev := none }, hs1, rfl, rfl, trivial⟩,
        rfl, rfl, by simpa using hrep.len, by simp, ?_⟩
      intro x hx
      simp at hx
      subst hx
      exact hlt
    · intro x
      by_cases hxa : x = a
      · subst hxa
        rw [valAt, valAt, hs1, hread]
        rfl
      · rw [valAt, valAt, Mem.read_write_ne _ _ hxa]
  | cons h γ' =>
    have hh : L.head = some h := by simpa using hrep.hd
    have hha : h ≠ a := by
      intro he
      exact hnotin (by simp [he])
    obtain ⟨ndh, hh1, hh2, hh3, hh4⟩ := hrep.chain
    have hreadh1 : (σ.write a { nd with next := some h, prev := none }).read h =
        some ndh := by
      rw [σ.read_write_ne _ hha, hh1]
    have hs1 : (σ.write a { nd with next := some h, prev := none }).read a =
        some { nd with next := some h, prev := none } :=
      Mem.read_write_self _ _ (by simp [hread])
    have hsa : ((σ.write a { nd with next := some h, prev := none }).write h
        { ndh with prev := some a }).read a =
        some { nd with next := some h, prev := none } := by
      rw [Mem.read_write_ne _ _ (Ne.symm hha)]
      exact hs1
    have hsh : ((σ.write a { nd with next := some h, prev := none }).write h
        { ndh with prev := some a }).read h = some { ndh with prev := some a } :=
      Mem.read_write_self _ _ (by simp [hreadh1])
    have hr2 : ∀ x, x ≠ a → x ≠ h →
        ((σ.write a { nd with next := some h, prev := none }).write h
          { ndh with prev := some a }).read x = σ.read x := by
      intro x hxa hxh
      rw [Mem.read_write_ne _ _ hxh, Mem.read_write_ne _ _ hxa]
    have hnotin' : a ∉ γ' := fun hx => hnotin (by simp [hx])
    have hhγ' : h ∉ γ' := by
      have hn := hrep.nodup
      rw [List.nodup_cons] at hn
      exact hn.1
    refine ⟨(σ.write a { nd with next := some h, prev := none }).write h
        { ndh with prev := some a },
      ⟨L.length + 1, some a, L.tail⟩, ?_, ?_, ?_, rfl, rfl, rfl⟩
    · simp only [LinkedList.insert_front_raw, hread, hh, Option.bind_eq_bind,
        Option.some_bind, hreadh1]
    · refine ⟨⟨{ nd with next := some h, prev := none }, hsa, rfl, rfl,
        ⟨{ ndh with prev := some a }, hsh, rfl, hh3, ?_⟩⟩, rfl, ?_, ?_, ?_, ?_⟩
      · refine dlist_congr (fun x hx => hr2 x ?_ ?_) hh4
        · exact fun he => hnotin' (he ▸ hx)
        · exact fun he => hhγ' (he ▸ hx)
      · rw [hrep.tl]
        rfl
      · rw [hrep.len]
        rfl
      · rw [List.nodup_cons]
        exact ⟨hnotin, hrep.nodup⟩
      · intro x hx
        rcases List.mem_cons.mp hx with he | hm
        · subst he
          exact hlt
        · exact hrep.bound x hm
    · intro x
      by_cases hxh : x = h
      · subst hxh
        rw [valAt, valAt, hsh, hh1]
        rfl
      · by_cases hxa : x = a
        · subst hxa
          rw [valAt, valAt, hsa, hread]
          rfl
        · rw [valAt, valAt, hr2 x hxa hxh]

theorem head?_append_left {γ₁ γ₂ : List Nat} (h : γ₁ ≠ []) :
    (γ₁ ++ γ₂).head? = γ₁.head? := by
  cases γ₁ with
  | nil => exact absurd rfl h
  | cons a l => rfl

theorem getLast?_append_right {γ₁ γ₂ : List Nat} (h : γ₂ ≠ []) :
    (γ₁ ++ γ₂).getLast? = γ₂.getLast? := by
  rcases List.eq_nil_or_concat γ₂ with rfl | ⟨δ, t, hγ⟩
  · exact absurd rfl h
  · rw [List.concat_eq_append] at hγ
    subst hγ
    rw [← List.append_assoc, List.getLast?_concat, List.getLast?_concat]

/-- Specification of `LinkedList::remove` on a represented list: removing the
node at `a` (anywhere in the chain) splices it out; all other nodes keep their
payloads and the header is updated consistently. -/
theorem remove_spec {T : Type} {σ : Mem T} {L : LinkedList} {γ₁ γ₂ : List Nat}
    {a : Nat} (hrep : Rep σ L (γ₁ ++ a :: γ₂)) :
    ∃ nd σ' L', σ.read a = some nd ∧
      LinkedList.remove σ L a = some (nd.val, σ', L') ∧
      Rep σ' L' (γ₁ ++ γ₂) ∧ (∀ x, valAt σ' x = valAt σ x) ∧ σ'.fresh = σ.fresh ∧
      L'.length = L.length - 1 := by
  have hN := hrep.nodup
  rw [List.nodup_append] at hN
  obtain ⟨nγ₁, hN2, hdisj⟩ := hN
  rw [List.nodup_cons] at hN2
  obtain ⟨haγ₂, nγ₂⟩ := hN2
  have haγ₁ : a ∉ γ₁ := fun hx => hdisj hx (List.mem_cons_self a γ₂)
  have hγdisj : ∀ x ∈ γ₁, x ∉ γ₂ := fun x hx hx2 =>
    hdisj hx (List.mem_cons_of_mem a hx2)
  obtain ⟨hc1, hc2⟩ := dlist_append.mp hrep.chain
  obtain ⟨nd, hnd, hprev, hnext, hc3⟩ := hc2
  rw [nextOf_cons] at hc1
  have hlen := hrep.len
  rw [List.length_append, List.length_cons] at hlen
  rcases List.eq_nil_or_concat γ₁ with rfl | ⟨δ, ℓ, hγ₁⟩
  · have hprev' : nd.prev = none := by simpa using hprev
    cases γ₂ with
    | nil =>
      have hnext' : nd.next = none := by simpa using hnext
      refine ⟨nd, σ, ⟨L.length - 1, none, none⟩, hnd, ?_, ?_, fun x => rfl, rfl, rfl⟩
      · simp only [LinkedList.remove, hnd, Option.bind_eq_bind, Option.some_bind,
          hprev', hnext']
      · exact ⟨trivial, rfl, rfl, by simp at hlen ⊢; omega, by simp, by simp⟩
    | cons q δ₂ =>
      have hnext' : nd.next = some q := by simpa using hnext
      obtain ⟨ndq, hq1, hq2, hq3, hc4⟩ := id hc3
      have hqδ₂ : q ∉ δ₂ := by
        rw [List.nodup_cons] at nγ₂
        exact nγ₂.1
      refine ⟨nd, σ.write q { ndq with prev := none },
        ⟨L.length - 1, some q, L.tail⟩, hnd, ?_, ?_, ?_, rfl, rfl⟩
      · simp only [LinkedList.remove, hnd, Option.bind_eq_bind, Option.some_bind,
          hprev', hnext', hq1]
      · refine ⟨?_, rfl, ?_, ?_, by simpa using nγ₂, ?_⟩
        · have hh : dlist (σ.write q { ndq with prev := none }) none
              (q :: δ₂) none := dlist_set_head_prev hq1 hqδ₂ hc3
          exact hh
        · rw [hrep.tl]
          simp [List.getLast?_cons_cons]
        · simp at hlen ⊢
          omega
        · intro x hx
          exact hrep.bound x (by simp [List.mem_cons.mp hx])
      · exact fun x => valAt_write_keep hq1 ndq.next none x
  · rw [List.concat_eq_append] at hγ₁
    subst hγ₁
    have hprev' : nd.prev = some ℓ := by rw [hprev, lastOf_concat]
    obtain ⟨hcd, hcl⟩ := dlist_append.mp hc1
    obtain ⟨ndl, hl1, hl2, hl3, -⟩ := hcl
    have hℓγ₂ : ℓ ∉ a :: γ₂ := hdisj (by simp)
    cases γ₂ with
    | nil =>
      have hnext' : nd.next = none := by simpa using hnext
      refine ⟨nd, σ.write ℓ { ndl with next := none },
        ⟨L.length - 1, L.head, some ℓ⟩, hnd, ?_, ?_, ?_, rfl, rfl⟩
      · simp only [LinkedList.remove, hnd, Option.bind_eq_bind, Option.some_bind,
          hprev', hnext', hl1]
      · refine ⟨?_, ?_, ?_, ?_, by simpa using nγ₁, ?_⟩
        · have hh : dlist (σ.write ℓ { ndl with next := none }) none
              (δ ++ [ℓ]) none := dlist_set_last_next hl1 nγ₁ hc1
          rw [List.append_nil]
          exact hh
        · rw [hrep.hd, List.append_nil, head?_append_left (by simp)]
        · rw [List.append_nil, List.getLast?_concat]
        · simp at hlen ⊢
          omega
        · intro x hx
          rw [List.append_nil] at hx
          exact hrep.bound x (List.mem_append_left [a] hx)
      · exact fun x => valAt_write_keep hl1 none ndl.prev x
    | cons q δ₂ =>
      have hnext' : nd.next = some q := by simpa using hnext
      obtain ⟨ndq, hq1, hq2, hq3, hc4⟩ := id hc3
      have hqγ₁ : q ∉ δ ++ [ℓ] := fun hx => hγdisj q hx (List.mem_cons_self q δ₂)
      have hqℓ : q ≠ ℓ := fun he => hqγ₁ (by simp [he])
      have hℓγ₁ : ℓ ∈ δ ++ [ℓ] := by simp
      have hℓqδ₂ : ℓ ∉ q :: δ₂ := hγdisj ℓ hℓγ₁
      have hqδ₂ : q ∉ δ₂ := by
        rw [List.nodup_cons] at nγ₂
        exact nγ₂.1
      have hq1' : (σ.write ℓ { ndl with next := some q }).read q = some ndq := by
        rw [Mem.read_write_ne _ _ hqℓ]
        exact hq1
      refine ⟨nd, (σ.write ℓ { ndl with next := some q }).write q
          { ndq with prev := some ℓ },
        ⟨L.length - 1, L.head, L.tail⟩, hnd, ?_, ?_, ?_, rfl, rfl⟩
      · simp only [LinkedList.remove, hnd, Option.bind_eq_bind, Option.some_bind,
          hprev', hnext', hl1, hq1']
      · have hstep1 : dlist (σ.write ℓ { ndl with next := some q }) none
            (δ ++ [ℓ]) (some q) := dlist_set_last_next hl1 nγ₁ hc1
        have hstep1' : dlist ((σ.write ℓ { ndl with next := some q }).write q
            { ndq with prev := some ℓ }) none (δ ++ [ℓ]) (some q) :=
          dlist_congr (fun x hx => Mem.read_write_ne _ _
            (fun he => hqγ₁ (he ▸ hx))) hstep1
        have hstep2 : dlist (σ.write ℓ { ndl with next := some q }) (some a)
            (q :: δ₂) none :=
          dlist_congr (fun x hx => Mem.read_write_ne _ _
            (fun he => hℓqδ₂ (he ▸ hx))) hc3
        have hstep3 : dlist ((σ.write ℓ { ndl with next := some q }).write q
            { ndq with prev := some ℓ }) (some ℓ) (q :: δ₂) none :=
          dlist_set_head_prev hq1' hqδ₂ hstep2
        refine ⟨?_, ?_, ?_, ?_, ?_, ?_⟩
        · refine dlist_append.mpr ⟨?_, ?_⟩
          · rw [nextOf_cons]
            exact hstep1'
          · rw [lastOf_concat]
            exact hstep3
        · have hne1 : (δ ++ [ℓ] : List Nat) ≠ [] := by simp
          rw [hrep.hd, head?_append_left hne1, head?_append_left hne1]
        · have hne2 : (a :: q :: δ₂ : List Nat) ≠ [] := by simp
          have hne3 : (q :: δ₂ : List Nat) ≠ [] := by simp
          rw [hrep.tl, getLast?_append_right hne2, getLast?_append_right hne3,
            List.getLast?_cons_cons]
        · simp at hlen ⊢
          omega
        · rw [List.nodup_append]
          exact ⟨nγ₁, by simpa using nγ₂, fun x hx => hγdisj x hx⟩
        · intro x hx
          rcases List.mem_append.mp hx with hm | hm
          · exact hrep.bound x (List.mem_append_left _ hm)
          · exact hrep.bound x (List.mem_append_right _ (List.mem_cons_of_mem a hm))
      · intro x
        rw [valAt_write_keep hq1' ndq.next (some ℓ) x,
          valAt_write_keep hl1 (some q) ndl.prev x]

/-- `LinkedList::remove_tail` on an empty list is a no-op returning `none`. -/
theorem remove_tail_nil_spec {T : Type} {σ : Mem T} {L : LinkedList}
    (hrep : Rep σ L []) : LinkedList.remove_tail σ L = some (none, σ, L) := by
  have ht : L.tail = none := by simpa using hrep.tl
  simp only [LinkedList.remove_tail, ht]

/-- Specification of `LinkedList::remove_tail` on a non-empty represented
list: the last node is unlinked and its value returned. -/
theorem remove_tail_spec {T : Type} {σ : Mem T} {L : LinkedList} {γ : List Nat}
    {t : Nat} (hrep : Rep σ L (γ ++ [t])) :
    ∃ nd σ' L', σ.read t = some nd ∧
      LinkedList.remove_tail σ L = some (some nd.val, σ', L') ∧
      Rep σ' L' γ ∧ (∀ x, valAt σ' x = valAt σ x) ∧ σ'.fresh = σ.fresh ∧
      L'.length = L.length - 1 := by
  have ht : L.tail = some t := by rw [hrep.tl, List.getLast?_concat]
  have hN := hrep.nodup
  rw [List.nodup_append] at hN
  obtain ⟨nγ, -, hdisj⟩ := hN
  have htγ : t ∉ γ := fun hx => hdisj hx (by simp)
  obtain ⟨hc1, hc2⟩ := dlist_append.mp hrep.chain
  rw [nextOf_cons] at hc1
  obtain ⟨nd, hnd, hprev, hnext, -⟩ := hc2
  have hlen := hrep.len
  rw [List.length_append, List.length_cons] at hlen
  rcases List.eq_nil_or_concat γ with rfl | ⟨δ, t2, hγ⟩
  · have hprev' : nd.prev = none := by simpa using hprev
    refine ⟨nd, σ, ⟨L.length - 1, none, none⟩, hnd, ?_, ?_, fun x => rfl, rfl, rfl⟩
    · simp only [LinkedList.remove_tail, ht, hnd, Option.bind_eq_bind,
        Option.some_bind, hprev']
    · exact ⟨trivial, rfl, rfl, by simp at hlen ⊢; omega, by simp, by simp⟩
  · rw [List.concat_eq_append] at hγ
    subst hγ
    have hprev' : nd.prev = some t2 := by rw [hprev, lastOf_concat]
    obtain ⟨-, hcl⟩ := dlist_append.mp hc1
    obtain ⟨nd2, h21, h22, h23, -⟩ := hcl
    refine ⟨nd, σ.write t2 { nd2 with next := none },
      ⟨L.length - 1, L.head, some t2⟩, hnd, ?_, ?_, ?_, rfl, rfl⟩
    · simp only [LinkedList.remove_tail, ht, hnd, Option.bind_eq_bind,
        Option.some_bind, hprev', h21]
    · refine ⟨?_, ?_, ?_, ?_, nγ, ?_⟩
      · exact dlist_set_last_next h21 nγ hc1
      · have hne1 : (δ ++ [t2] : List Nat) ≠ [] := by simp
        rw [hrep.hd, head?_append_left hne1]
      · rw [List.getLast?_concat]
      · simp at hlen ⊢
        omega
      · intro x hx
        exact hrep.bound x (List.mem_append_left _ hx)
    · exact fun x => valAt_write_keep h21 none nd2.prev x

/-- Specification of `LinkedList::reinsert_front`: the node at `a` moves to
the front; length and all payloads are unchanged. -/
theorem reinsert_front_spec {T : Type} {σ : Mem T} {L : LinkedList}
    {γ₁ γ₂ : List Nat} {a : Nat} (hrep : Rep σ L (γ₁ ++ a :: γ₂)) :
    ∃ σ' L', LinkedList.reinsert_front σ L a = some (σ', L') ∧
      Rep σ' L' (a :: (γ₁ ++ γ₂)) ∧ (∀ x, valAt σ' x = valAt σ x) ∧
      σ'.fresh = σ.fresh ∧ L'.length = L.length := by
  obtain ⟨nd, σ1, L1, hnd, hop, hrep1, hval1, hfresh1, hlen1⟩ := remove_spec hrep
  have hv : valAt σ1 a = some nd.val := by
    rw [hval1 a, valAt, hnd]
    rfl
  have hex : ∃ nd1, σ1.read a = some nd1 := by
    rcases h : σ1.read a with _ | nd1
    · rw [valAt, h] at hv
      simp at hv
    · exact ⟨nd1, rfl⟩
  obtain ⟨nd1, hnd1⟩ := hex
  have hnotin : a ∉ γ₁ ++ γ₂ := by
    have hN := hrep.nodup
    rw [List.nodup_append, List.nodup_cons] at hN
    intro hx
    rcases List.mem_append.mp hx with hm | hm
    · exact hN.2.2 hm (List.mem_cons_self a γ₂)
    · exact hN.2.1.1 hm
  have hlt : a < σ1.fresh := by
    rw [hfresh1]
    exact hrep.bound a (List.mem_append_right _ (List.mem_cons_self a γ₂))
  obtain ⟨σ2, L2, hop2, hrep2, hval2, hfresh2, hlen2, hhead2⟩ :=
    insert_front_raw_spec hrep1 hnd1 hnotin hlt
  refine ⟨σ2, L2, ?_, hrep2, fun x => (hval2 x).trans (hval1 x),
    hfresh2.trans hfresh1, ?_⟩
  · simp only [LinkedList.reinsert_front, hop, Option.bind_eq_bind,
      Option.some_bind, hop2]
  · rw [hlen2, hlen1]
    have hL := hrep.len
    rw [List.length_append, List.length_cons] at hL
    omega

/-! ### The cache invariant -/

@[simp] theorem Mem.alloc_fst {T : Type} (σ : Mem T) (nd : Node T) :
    (σ.alloc nd).1 = σ.fresh := rfl

theorem Mem.alloc_fresh {T : Type} (σ : Mem T) (nd : Node T) :
    (σ.alloc nd).2.fresh = σ.fresh + 1 := rfl

theorem read_of_valAt {T : Type} {σ : Mem T} {x : Nat} {e : T}
    (h : valAt σ x = some e) : ∃ nd, σ.read x = some nd ∧ nd.val = e := by
  rcases hr : σ.read x with _ | nd
  · rw [valAt, hr] at h
    simp at h
  · rw [valAt, hr] at h
    exact ⟨nd, rfl, by simpa using h⟩

/-- A fully linked chain is traversed exactly by `iter` within `length`
steps. -/
theorem iterAddrs_chain {T : Type} {σ : Mem T} {p : Option Nat} {γ : List Nat}
    (h : dlist σ p γ none) : iterAddrs σ γ.length γ.head? = γ := by
  induction γ generalizing p with
  | nil => rfl
  | cons a rest ih =>
    obtain ⟨nd, h1, h2, h3, h4⟩ := h
    rw [List.length_cons, List.head?_cons]
    simp only [iterAddrs, h1]
    rw [h3, nextOf_eq_head?, ih h4]

/-- The key component of a logical cache record `(address, key, value)`. -/
def keyOf {V : Type} (p : Nat × Key × V) : Key := p.2.1

/-- The `(key, handle)` pair a record contributes to the index. -/
def pairKA {V : Type} (p : Nat × Key × V) : Key × Nat := (p.2.1, p.1)

@[simp] theorem keyOf_mk {V : Type} (a : Nat) (k : Key) (v : V) :
    keyOf (a, k, v) = k := rfl

@[simp] theorem pairKA_mk {V : Type} (a : Nat) (k : Key) (v : V) :
    pairKA (a, k, v) = (k, a) := rfl

/-- The full cache invariant, indexed by the logical content `ρ`: the address,
key and value of each live node, in recency order (most recent first).  It
asserts that the linked list represents exactly the addresses of `ρ`, that
each node holds its record's key and value, that the `HashMap` index is
(up to order) exactly the key-to-handle pairing of `ρ`, that keys are unique,
and that the entry count never exceeds `max capacity 1`. -/
structure Inv {V : Type} (c : LRUCache V) (ρ : List (Nat × Key × V)) : Prop where
  rep : Rep c.mem c.list (ρ.map Prod.fst)
  vals : ∀ p ∈ ρ, valAt c.mem p.1 = some ⟨p.2.1, p.2.2⟩
  perm : c.map.Perm (ρ.map pairKA)
  keysN : (ρ.map keyOf).Nodup
  lenB : ρ.length ≤ max c.capacity 1

/-- The invariant holds for a freshly constructed cache. -/
theorem Inv_new {V : Type} (capacity : Nat) :
    Inv (LRUCache.new (V := V) capacity) [] := by
  refine ⟨⟨trivial, rfl, rfl, rfl, List.nodup_nil, ?_⟩, ?_, List.Perm.refl _,
    List.nodup_nil, by simp⟩
  · intro a ha
    simp at ha
  · intro p hp
    simp at hp

theorem addrs_of_inv {V : Type} {c : LRUCache V} {ρ : List (Nat × Key × V)}
    (h : Inv c ρ) : c.addrs = ρ.map Prod.fst := by
  rw [LRUCache.addrs, h.rep.len, h.rep.hd]
  exact iterAddrs_chain h.rep.chain

theorem filterMap_eq_map_of_some {α β : Type} {l : List α} {f : α → Option β}
    {g : α → β} (h : ∀ x ∈ l, f x = some (g x)) : l.filterMap f = l.map g := by
  induction l with
  | nil => rfl
  | cons a rest ih =>
    rw [List.filterMap_cons, h a (by simp), List.map_cons,
      ih (fun x hx => h x (by simp [hx]))]

/-- Under the invariant the observable entry sequence is exactly the logical
content. -/
theorem entriesInOrder_of_inv {V : Type} {c : LRUCache V}
    {ρ : List (Nat × Key × V)} (h : Inv c ρ) :
    c.entriesInOrder = ρ.map Prod.snd := by
  rw [LRUCache.entriesInOrder, addrs_of_inv h, List.filterMap_map]
  refine filterMap_eq_map_of_some (fun p hp => ?_)
  have hv := h.vals p hp
  simp only [Function.comp_apply, hv, Option.map_some']

theorem map_keys_nodup {V : Type} {c : LRUCache V} {ρ : List (Nat × Key × V)}
    (h : Inv c ρ) : (c.map.map Prod.fst).Nodup := by
  have hp : (c.map.map Prod.fst).Perm ((ρ.map pairKA).map Prod.fst) :=
    h.perm.map Prod.fst
  have he : (ρ.map pairKA).map Prod.fst = ρ.map keyOf := by
    rw [List.map_map]
    rfl
  rw [he] at hp
  exact (List.Perm.nodup_iff hp).mpr h.keysN

/-- Index lookup characterised against the logical content. -/
theorem lookup_inv {V : Type} {c : LRUCache V} {ρ : List (Nat × Key × V)}
    (h : Inv c ρ) {k : Key} {a : Nat} :
    lookupA c.map k = some a ↔ ∃ v, (a, k, v) ∈ ρ := by
  constructor
  · intro hl
    have hm : (k, a) ∈ c.map := mem_of_lookupA_eq_some hl
    have hm2 : (k, a) ∈ ρ.map pairKA := h.perm.mem_iff.mp hm
    obtain ⟨p, hp, he⟩ := List.mem_map.mp hm2
    refine ⟨p.2.2, ?_⟩
    rw [pairKA] at he
    have h1 : p.2.1 = k := congrArg Prod.fst he
    have h2 : p.1 = a := congrArg Prod.snd he
    have : (a, k, p.2.2) = p := by
      rw [← h1, ← h2]
    rw [this]
    exact hp
  · rintro ⟨v, hv⟩
    have hm2 : (k, a) ∈ ρ.map pairKA := by
      have := List.mem_map_of_mem pairKA hv
      simpa using this
    exact lookupA_eq_some_of_mem (map_keys_nodup h) (h.perm.mem_iff.mpr hm2)

theorem lookup_none_inv {V : Type} {c : LRUCache V} {ρ : List (Nat × Key × V)}
    (h : Inv c ρ) {k : Key} :
    lookupA c.map k = none ↔ k ∉ ρ.map keyOf := by
  rw [lookupA_eq_none_iff]
  constructor
  · intro hk hmem
    obtain ⟨p, hp, he⟩ := List.mem_map.mp hmem
    refine hk ?_
    have : (k, p.1) ∈ c.map := h.perm.mem_iff.mpr (by
      have := List.mem_map_of_mem pairKA hp
      rw [pairKA] at this
      rw [keyOf] at he
      rw [he] at this
      exact this)
    simpa using List.mem_map_of_mem Prod.fst this
  · intro hk hmem
    obtain ⟨p, hp, he⟩ := List.mem_map.mp hmem
    have hm2 : p ∈ ρ.map pairKA := h.perm.mem_iff.mp hp
    obtain ⟨q, hq, he2⟩ := List.mem_map.mp hm2
    refine hk ?_
    have : keyOf q = k := by
      rw [keyOf, ← he, ← he2]
      rfl
    rw [← this]
    exact List.mem_map_of_mem keyOf hq

theorem filter_ne_key_eq_self {β : Type} {k : Key} {m : List (Key × β)}
    (h : k ∉ m.map Prod.fst) : m.filter (fun p => decide (p.1 ≠ k)) = m := by
  rw [List.filter_eq_self]
  intro p hp
  rw [decide_eq_true_iff]
  intro he
  exact h (he ▸ List.mem_map_of_mem Prod.fst hp)

theorem map_fst_middle {V : Type} (ρ₁ ρ₂ : List (Nat × Key × V)) (a : Nat)
    (k : Key) (v : V) :
    (ρ₁ ++ (a, k, v) :: ρ₂).map Prod.fst =
      ρ₁.map Prod.fst ++ a :: ρ₂.map Prod.fst := by
  simp

theorem map_pairKA_middle {V : Type} (ρ₁ ρ₂ : List (Nat × Key × V)) (a : Nat)
    (k : Key) (v : V) :
    (ρ₁ ++ (a, k, v) :: ρ₂).map pairKA =
      ρ₁.map pairKA ++ (k, a) :: ρ₂.map pairKA := by
  simp

theorem map_keyOf_middle {V : Type} (ρ₁ ρ₂ : List (Nat × Key × V)) (a : Nat)
    (k : Key) (v : V) :
    (ρ₁ ++ (a, k, v) :: ρ₂).map keyOf = ρ₁.map keyOf ++ k :: ρ₂.map keyOf := by
  simp

/-- `LRUCache::get` on a present key: the hit value is returned, the record
moves to the front, and nothing else changes. -/
theorem get_hit_spec {V : Type} {c : LRUCache V} {ρ₁ ρ₂ : List (Nat × Key × V)}
    {a : Nat} {k : Key} {vK : V} (hInv : Inv c (ρ₁ ++ (a, k, vK) :: ρ₂))
    (hk : lookupA c.map k = some a) :
    ∃ c', c.get k = some (some vK, c') ∧ Inv c' ((a, k, vK) :: (ρ₁ ++ ρ₂)) ∧
      c'.map = c.map ∧ c'.capacity = c.capacity ∧
      c'.list.length = c.list.length ∧ c'.mem.fresh = c.mem.fresh ∧
      (∀ x, valAt c'.mem x = valAt c.mem x) := by
  have hval : valAt c.mem a = some ⟨k, vK⟩ := hInv.vals (a, k, vK) (by simp)
  obtain ⟨nd, hnd, hndval⟩ := read_of_valAt hval
  have hrep' : Rep c.mem c.list (ρ₁.map Prod.fst ++ a :: ρ₂.map Prod.fst) := by
    have h := hInv.rep
    rw [map_fst_middle] at h
    exact h
  obtain ⟨σ2, L2, hop2, hrep2, hval2, hfresh2, hlen2⟩ := reinsert_front_spec hrep'
  refine ⟨⟨σ2, c.map, L2, c.capacity⟩, ?_, ?_, rfl, rfl, hlen2, hfresh2, hval2⟩
  · simp only [LRUCache.get, hk, hnd, Option.bind_eq_bind, Option.some_bind, hop2,
      hndval]
  · refine ⟨?_, ?_, ?_, ?_, ?_⟩
    · rw [List.map_cons]
      have he : ((ρ₁ ++ ρ₂).map Prod.fst) = ρ₁.map Prod.fst ++ ρ₂.map Prod.fst :=
        List.map_append _ _ _
      rw [he]
      exact hrep2
    · intro p hp
      rw [hval2 p.1]
      refine hInv.vals p ?_
      rcases List.mem_cons.mp hp with he | hm
      · subst he
        simp
      · rcases List.mem_append.mp hm with h1 | h1
        · exact List.mem_append_left _ h1
        · exact List.mem_append_right _ (List.mem_cons_of_mem _ h1)
    · refine hInv.perm.trans ?_
      rw [map_pairKA_middle, List.map_cons, List.map_append]
      exact List.perm_middle
    · have hh := hInv.keysN
      rw [map_keyOf_middle] at hh
      have := List.perm_middle.nodup hh
      rw [List.map_cons, List.map_append]
      simpa using this
    · have hb := hInv.lenB
      rw [List.length_append, List.length_cons] at hb
      show ((a, k, vK) :: (ρ₁ ++ ρ₂)).length ≤ max c.capacity 1
      rw [List.length_cons, List.length_append]
      omega

theorem map_pairKA_fst {V : Type} (ρ : List (Nat × Key × V)) :
    (ρ.map pairKA).map Prod.fst = ρ.map keyOf := by
  rw [List.map_map]
  rfl

/-- `LRUCache::insert` on a present key: the old value is returned, the old
node is replaced by a fresh front node, the index is repointed, and the entry
count is unchanged (no eviction). -/
theorem insert_hit_spec {V : Type} {c : LRUCache V} {ρ₁ ρ₂ : List (Nat × Key × V)}
    {a : Nat} {k : Key} {vOld : V} (hInv : Inv c (ρ₁ ++ (a, k, vOld) :: ρ₂))
    (hk : lookupA c.map k = some a) (v : V) :
    ∃ c', c.insert k v = some (some vOld, c') ∧
      Inv c' ((c.mem.fresh, k, v) :: (ρ₁ ++ ρ₂)) ∧
      c'.map = hmInsert c.map k c.mem.fresh ∧ c'.capacity = c.capacity ∧
      c'.list.length = c.list.length ∧ c'.list.head = some c.mem.fresh ∧
      c'.mem.fresh = c.mem.fresh + 1 := by
  have hamem : a ∈ (ρ₁ ++ (a, k, vOld) :: ρ₂).map Prod.fst := by simp
  have halt : a < c.mem.fresh := hInv.rep.bound a hamem
  have hrep0 : Rep (c.mem.alloc ⟨⟨k, v⟩, none, none⟩).2 c.list
      (ρ₁.map Prod.fst ++ a :: ρ₂.map Prod.fst) := by
    have h := hInv.rep.alloc ⟨⟨k, v⟩, none, none⟩
    rw [map_fst_middle] at h
    exact h
  obtain ⟨nd, σ1, L1, hnd, hop, hrep1, hval1, hfresh1, hlen1⟩ := remove_spec hrep0
  have hvala : valAt (c.mem.alloc ⟨⟨k, v⟩, none, none⟩).2 a = some ⟨k, vOld⟩ := by
    rw [valAt_alloc_ne _ (Nat.ne_of_lt halt)]
    exact hInv.vals (a, k, vOld) (by simp)
  have hndval : nd.val = ⟨k, vOld⟩ := by
    rw [valAt, hnd] at hvala
    simpa using hvala
  have hvalf : valAt σ1 c.mem.fresh = some ⟨k, v⟩ := by
    rw [hval1, valAt_alloc_self]
  obtain ⟨ndf, hndf, hndfval⟩ := read_of_valAt hvalf
  have hfnotin : c.mem.fresh ∉ ρ₁.map Prod.fst ++ ρ₂.map Prod.fst := by
    intro hx
    have hc : c.mem.fresh < c.mem.fresh := by
      refine hInv.rep.bound _ ?_
      rw [map_fst_middle]
      rcases List.mem_append.mp hx with h1 | h1
      · exact List.mem_append_left _ h1
      · exact List.mem_append_right _ (List.mem_cons_of_mem _ h1)
    omega
  have hflt : c.mem.fresh < σ1.fresh := by
    rw [hfresh1, Mem.alloc_fresh]
    omega
  obtain ⟨σ2, L2, hop2, hrep2, hval2, hfresh2, hlen2, hhead2⟩ :=
    insert_front_raw_spec hrep1 hndf hfnotin hflt
  have hLlen := hInv.rep.len
  rw [map_fst_middle, List.length_append, List.length_cons] at hLlen
  refine ⟨⟨σ2, hmInsert c.map k c.mem.fresh, L2, c.capacity⟩, ?_, ?_, rfl, rfl,
    ?_, hhead2, ?_⟩
  · simp only [LRUCache.insert, Mem.alloc_fst, hk, Option.bind_eq_bind,
      Option.some_bind, hop, hop2, hndval]
  · have hkN := hInv.keysN
    rw [map_keyOf_middle, List.nodup_append, List.nodup_cons] at hkN
    obtain ⟨hN1, ⟨hkρ₂, hN2⟩, hdisjK⟩ := hkN
    have hkρ₁ : k ∉ ρ₁.map keyOf := fun hx => hdisjK hx (List.mem_cons_self _ _)
    refine ⟨?_, ?_, ?_, ?_, ?_⟩
    · rw [List.map_cons, List.map_append]
      exact hrep2
    · intro p hp
      rw [hval2 p.1, hval1 p.1]
      rcases List.mem_cons.mp hp with he | hm
      · subst he
        exact valAt_alloc_self _ _
      · have hpmem : p ∈ ρ₁ ++ (a, k, vOld) :: ρ₂ := by
          rcases List.mem_append.mp hm with h1 | h1
          · exact List.mem_append_left _ h1
          · exact List.mem_append_right _ (List.mem_cons_of_mem _ h1)
        have hp1 : p.1 < c.mem.fresh := by
          refine hInv.rep.bound p.1 ?_
          exact List.mem_map_of_mem Prod.fst hpmem
        rw [valAt_alloc_ne _ (Nat.ne_of_lt hp1)]
        exact hInv.vals p hpmem
    · show (hmInsert c.map k c.mem.fresh).Perm _
      rw [hmInsert, List.map_cons, pairKA_mk, List.map_append]
      refine List.Perm.cons _ ?_
      have hf₁ : k ∉ (ρ₁.map pairKA).map Prod.fst := by
        rw [map_pairKA_fst]
        exact hkρ₁
      have hf₂ : k ∉ (ρ₂.map pairKA).map Prod.fst := by
        rw [map_pairKA_fst]
        exact hkρ₂
      have hstep := hInv.perm.filter (fun p => decide (p.1 ≠ k))
      rw [map_pairKA_middle, List.filter_append, List.filter_cons_of_neg (by simp),
        filter_ne_key_eq_self hf₁, filter_ne_key_eq_self hf₂] at hstep
      exact hstep
    · rw [List.map_cons, keyOf_mk, List.map_append]
      rw [List.nodup_cons]
      refine ⟨?_, ?_⟩
      · intro hx
        rcases List.mem_append.mp hx with h1 | h1
        · exact hkρ₁ h1
        · exact hkρ₂ h1
      · rw [List.nodup_append]
        exact ⟨hN1, hN2, fun x hx hx2 => hdisjK hx (List.mem_cons_of_mem _ hx2)⟩
    · have hb := hInv.lenB
      rw [List.length_append, List.length_cons] at hb
      show ((c.mem.fresh, k, v) :: (ρ₁ ++ ρ₂)).length ≤ max c.capacity 1
      rw [List.length_cons, List.length_append]
      omega
  · rw [hlen2, hlen1]
    omega
  · rw [hfresh2, hfresh1, Mem.alloc_fresh]

/-- `LRUCache::get` on an absent key: no result, no state change. -/
theorem get_miss_spec {V : Type} {c : LRUCache V} {k : Key}
    (hk : lookupA c.map k = none) : c.get k = some (none, c) := by
  simp only [LRUCache.get, hk]

/-- `LRUCache::insert` on a new key with spare room (`length < capacity`): no
eviction, the new record becomes the head. -/
theorem insert_miss_noevict_spec {V : Type} {c : LRUCache V}
    {ρ : List (Nat × Key × V)} {k : Key} (hInv : Inv c ρ)
    (hk : lookupA c.map k = none) (hlt : c.list.length < c.capacity) (v : V) :
    ∃ c', c.insert k v = some (none, c') ∧ Inv c' ((c.mem.fresh, k, v) :: ρ) ∧
      c'.map = hmInsert c.map k c.mem.fresh ∧ c'.capacity = c.capacity ∧
      c'.list.length = c.list.length + 1 ∧ c'.list.head = some c.mem.fresh ∧
      c'.mem.fresh = c.mem.fresh + 1 := by
  have hkρ : k ∉ ρ.map keyOf := (lookup_none_inv hInv).mp hk
  have hrep0 : Rep (c.mem.alloc ⟨⟨k, v⟩, none, none⟩).2 c.list (ρ.map Prod.fst) :=
    hInv.rep.alloc _
  have hvalf : valAt (c.mem.alloc ⟨⟨k, v⟩, none, none⟩).2 c.mem.fresh =
      some ⟨k, v⟩ := valAt_alloc_self _ _
  obtain ⟨ndf, hndf, hndfval⟩ := read_of_valAt hvalf
  have hfnotin : c.mem.fresh ∉ ρ.map Prod.fst := fun hx => by
    have := hInv.rep.bound _ hx
    omega
  have hflt : c.mem.fresh < (c.mem.alloc ⟨⟨k, v⟩, none, none⟩).2.fresh := by
    rw [Mem.alloc_fresh]
    omega
  obtain ⟨σ2, L2, hop2, hrep2, hval2, hfresh2, hlen2, hhead2⟩ :=
    insert_front_raw_spec hrep0 hndf hfnotin hflt
  refine ⟨⟨σ2, hmInsert c.map k c.mem.fresh, L2, c.capacity⟩, ?_, ?_, rfl, rfl,
    hlen2, hhead2, by rw [hfresh2, Mem.alloc_fresh]⟩
  · simp only [LRUCache.insert, Mem.alloc_fst, hk]
    rw [if_neg (by omega)]
    simp only [Option.bind_eq_bind, Option.some_bind, hop2]
  · refine ⟨?_, ?_, ?_, ?_, ?_⟩
    · rw [List.map_cons]
      exact hrep2
    · intro p hp
      rw [hval2 p.1]
      rcases List.mem_cons.mp hp with he | hm
      · subst he
        exact hvalf
      · have hp1 : p.1 < c.mem.fresh :=
          hInv.rep.bound p.1 (List.mem_map_of_mem Prod.fst hm)
        rw [valAt_alloc_ne _ (Nat.ne_of_lt hp1)]
        exact hInv.vals p hm
    · show (hmInsert c.map k c.mem.fresh).Perm _
      rw [hmInsert, List.map_cons, pairKA_mk]
      refine List.Perm.cons _ ?_
      have hf : k ∉ (ρ.map pairKA).map Prod.fst := by
        rw [map_pairKA_fst]
        exact hkρ
      have hstep := hInv.perm.filter (fun p => decide (p.1 ≠ k))
      rw [filter_ne_key_eq_self hf] at hstep
      exact hstep
    · rw [List.map_cons, keyOf_mk, List.nodup_cons]
      exact ⟨hkρ, hInv.keysN⟩
    · have hL := hInv.rep.len
      rw [List.length_map] at hL
      show ((c.mem.fresh, k, v) :: ρ).length ≤ max c.capacity 1
      rw [List.length_cons]
      omega

/-- `LRUCache::insert` on a new key into an empty cache in the eviction branch
(`length >= capacity`, so `capacity = 0`): `remove_tail` finds nothing, no
eviction result, the record is inserted anyway. -/
theorem insert_miss_empty_spec {V : Type} {c : LRUCache V} {k : Key}
    (hInv : Inv c []) (hk : lookupA c.map k = none)
    (hge : c.list.length ≥ c.capacity) (v : V) :
    ∃ c', c.insert k v = some (none, c') ∧ Inv c' [(c.mem.fresh, k, v)] ∧
      c'.map = hmInsert c.map k c.mem.fresh ∧ c'.capacity = c.capacity ∧
      c'.list.length = 1 ∧ c'.list.head = some c.mem.fresh ∧
      c'.mem.fresh = c.mem.fresh + 1 := by
  have hrep0 : Rep (c.mem.alloc ⟨⟨k, v⟩, none, none⟩).2 c.list [] := by
    have h := hInv.rep.alloc ⟨⟨k, v⟩, none, none⟩
    simpa using h
  have hopT := remove_tail_nil_spec hrep0
  have hvalf : valAt (c.mem.alloc ⟨⟨k, v⟩, none, none⟩).2 c.mem.fresh =
      some ⟨k, v⟩ := valAt_alloc_self _ _
  obtain ⟨ndf, hndf, hndfval⟩ := read_of_valAt hvalf
  have hflt : c.mem.fresh < (c.mem.alloc ⟨⟨k, v⟩, none, none⟩).2.fresh := by
    rw [Mem.alloc_fresh]
    omega
  obtain ⟨σ2, L2, hop2, hrep2, hval2, hfresh2, hlen2, hhead2⟩ :=
    insert_front_raw_spec hrep0 hndf (by simp) hflt
  have hL0 : c.list.length = 0 := by simpa using hInv.rep.len
  refine ⟨⟨σ2, hmInsert c.map k c.mem.fresh, L2, c.capacity⟩, ?_, ?_, rfl, rfl,
    by rw [hlen2, hL0], hhead2, by rw [hfresh2, Mem.alloc_fresh]⟩
  · simp only [LRUCache.insert, Mem.alloc_fst, hk]
    rw [if_pos hge]
    simp only [Option.bind_eq_bind, Option.some_bind, hopT, hop2]
  · have hmapnil : c.map = [] := hInv.perm.eq_nil
    refine ⟨?_, ?_, ?_, ?_, ?_⟩
    · rw [List.map_cons]
      simpa using hrep2
    · intro p hp
      rw [List.mem_singleton] at hp
      subst hp
      rw [hval2]
      exact hvalf
    · rw [hmInsert, hmapnil]
      simp [pairKA]
    · simp
    · simp

/-- `LRUCache::insert` on a new key with `length >= capacity` and a non-empty
list: the tail record is evicted, its key leaves the index and its value is
returned; the new record becomes the head. -/
theorem insert_miss_evict_spec {V : Type} {c : LRUCache V}
    {ρ₀ : List (Nat × Key × V)} {t : Nat} {kT : Key} {vT : V} {k : Key}
    (hInv : Inv c (ρ₀ ++ [(t, kT, vT)])) (hk : lookupA c.map k = none)
    (hge : c.list.length ≥ c.capacity) (v : V) :
    ∃ c', c.insert k v = some (some vT, c') ∧
      Inv c' ((c.mem.fresh, k, v) :: ρ₀) ∧
      c'.map = hmInsert (hmRemove c.map kT) k c.mem.fresh ∧
      c'.capacity = c.capacity ∧ c'.list.length = ρ₀.length + 1 ∧
      c'.list.head = some c.mem.fresh ∧ c'.mem.fresh = c.mem.fresh + 1 := by
  have hkρ : k ∉ (ρ₀ ++ [(t, kT, vT)]).map keyOf := (lookup_none_inv hInv).mp hk
  have hkρ₀ : k ∉ ρ₀.map keyOf := fun hx => hkρ (by simp [hx])
  have hkN := hInv.keysN
  rw [List.map_append, List.nodup_append] at hkN
  obtain ⟨hN0, -, hdisjK⟩ := hkN
  have hkTρ₀ : kT ∉ ρ₀.map keyOf := fun hx => hdisjK hx (by simp)
  have htmem : (t, kT, vT) ∈ ρ₀ ++ [(t, kT, vT)] := by simp
  have htlt : t < c.mem.fresh :=
    hInv.rep.bound t (List.mem_map_of_mem Prod.fst htmem)
  have hrep0 : Rep (c.mem.alloc ⟨⟨k, v⟩, none, none⟩).2 c.list
      (ρ₀.map Prod.fst ++ [t]) := by
    have h := hInv.rep.alloc ⟨⟨k, v⟩, none, none⟩
    rw [List.map_append] at h
    exact h
  obtain ⟨ndT, σ1, L1, hndT, hopT, hrep1, hval1, hfresh1, hlenT⟩ :=
    remove_tail_spec hrep0
  have hvalT : valAt (c.mem.alloc ⟨⟨k, v⟩, none, none⟩).2 t = some ⟨kT, vT⟩ := by
    rw [valAt_alloc_ne _ (Nat.ne_of_lt htlt)]
    exact hInv.vals (t, kT, vT) (by simp)
  have hndTval : ndT.val = ⟨kT, vT⟩ := by
    rw [valAt, hndT] at hvalT
    simpa using hvalT
  have hvalf : valAt σ1 c.mem.fresh = some ⟨k, v⟩ := by
    rw [hval1, valAt_alloc_self]
  obtain ⟨ndf, hndf, hndfval⟩ := read_of_valAt hvalf
  have hfnotin : c.mem.fresh ∉ ρ₀.map Prod.fst := fun hx => by
    have hc := hInv.rep.bound c.mem.fresh
      (by rw [List.map_append]; exact List.mem_append_left _ hx)
    omega
  have hflt : c.mem.fresh < σ1.fresh := by
    rw [hfresh1, Mem.alloc_fresh]
    omega
  obtain ⟨σ2, L2, hop2, hrep2, hval2, hfresh2, hlen2, hhead2⟩ :=
    insert_front_raw_spec hrep1 hndf hfnotin hflt
  have hLlen : c.list.length = ρ₀.length + 1 := by
    have h := hInv.rep.len
    rw [List.length_map, List.length_append, List.length_cons, List.length_nil] at h
    exact h
  refine ⟨⟨σ2, hmInsert (hmRemove c.map kT) k c.mem.fresh, L2, c.capacity⟩, ?_,
    ?_, rfl, rfl, by rw [hlen2, hlenT]; omega, hhead2,
    by rw [hfresh2, hfresh1, Mem.alloc_fresh]⟩
  · simp only [LRUCache.insert, Mem.alloc_fst, hk]
    rw [if_pos hge]
    simp only [Option.bind_eq_bind, Option.some_bind, hopT, hop2, hndTval]
  · refine ⟨?_, ?_, ?_, ?_, ?_⟩
    · rw [List.map_cons]
      exact hrep2
    · intro p hp
      rw [hval2 p.1, hval1 p.1]
      rcases List.mem_cons.mp hp with he | hm
      · subst he
        exact valAt_alloc_self _ _
      · have hp1 : p.1 < c.mem.fresh := by
          refine hInv.rep.bound p.1 ?_
          exact List.mem_map_of_mem Prod.fst (List.mem_append_left _ hm)
        rw [valAt_alloc_ne _ (Nat.ne_of_lt hp1)]
        exact hInv.vals p (List.mem_append_left _ hm)
    · show (hmInsert (hmRemove c.map kT) k c.mem.fresh).Perm _
      rw [hmInsert, hmRemove, List.map_cons, pairKA_mk]
      refine List.Perm.cons _ ?_
      have hfT : kT ∉ (ρ₀.map pairKA).map Prod.fst := by
        rw [map_pairKA_fst]
        exact hkTρ₀
      have hfk : k ∉ (ρ₀.map pairKA).map Prod.fst := by
        rw [map_pairKA_fst]
        exact hkρ₀
      have hstepT := hInv.perm.filter (fun p => decide (p.1 ≠ kT))
      rw [List.map_append, List.filter_append, filter_ne_key_eq_self hfT] at hstepT
      have hsing : (([(t, kT, vT)].map pairKA).filter
          (fun p => decide (p.1 ≠ kT))) = [] := by
        simp [pairKA]
      rw [hsing, List.append_nil] at hstepT
      have hstep2 := hstepT.filter (fun p => decide (p.1 ≠ k))
      rw [filter_ne_key_eq_self hfk] at hstep2
      exact hstep2
    · rw [List.map_cons, keyOf_mk, List.nodup_cons]
      exact ⟨hkρ₀, hN0⟩
    · have hb := hInv.lenB
      rw [List.length_append, List.length_cons, List.length_nil] at hb
      show ((c.mem.fresh, k, v) :: ρ₀).length ≤ max c.capacity 1
      rw [List.length_cons]
      omega

/-- Split a present key's record out of the logical content. -/
theorem split_of_lookup {V : Type} {c : LRUCache V} {ρ : List (Nat × Key × V)}
    (hInv : Inv c ρ) {k : Key} {a : Nat} (hk : lookupA c.map k = some a) :
    ∃ ρ₁ v ρ₂, ρ = ρ₁ ++ (a, k, v) :: ρ₂ := by
  obtain ⟨v, hv⟩ := (lookup_inv hInv).mp hk
  obtain ⟨ρ₁, ρ₂, he⟩ := List.append_of_mem hv
  exact ⟨ρ₁, v, ρ₂, he⟩

/-- Well-formedness: some logical content witnesses the invariant. -/
def WF {V : Type} (c : LRUCache V) : Prop := ∃ ρ, Inv c ρ

theorem insert_wf {V : Type} {c : LRUCache V} (h : WF c) (k : Key) (v : V) :
    ∃ r c', c.insert k v = some (r, c') ∧ WF c' ∧ c'.capacity = c.capacity := by
  obtain ⟨ρ, hInv⟩ := h
  rcases hlk : lookupA c.map k with _ | a
  · by_cases hge : c.list.length ≥ c.capacity
    · rcases List.eq_nil_or_concat ρ with rfl | ⟨ρ₀, p, hρ⟩
      · obtain ⟨c', h1, h2, -, hcap, -⟩ := insert_miss_empty_spec hInv hlk hge v
        exact ⟨none, c', h1, ⟨_, h2⟩, hcap⟩
      · rw [List.concat_eq_append] at hρ
        subst hρ
        obtain ⟨t, kT, vT⟩ := p
        obtain ⟨c', h1, h2, -, hcap, -⟩ := insert_miss_evict_spec hInv hlk hge v
        exact ⟨some vT, c', h1, ⟨_, h2⟩, hcap⟩
    · obtain ⟨c', h1, h2, -, hcap, -⟩ := insert_miss_noevict_spec hInv hlk
        (by omega) v
      exact ⟨none, c', h1, ⟨_, h2⟩, hcap⟩
  · obtain ⟨ρ₁, vOld, ρ₂, hρ⟩ := split_of_lookup hInv hlk
    subst hρ
    obtain ⟨c', h1, h2, -, hcap, -⟩ := insert_hit_spec hInv hlk v
    exact ⟨some vOld, c', h1, ⟨_, h2⟩, hcap⟩

theorem get_wf {V : Type} {c : LRUCache V} (h : WF c) (k : Key) :
    ∃ r c', c.get k = some (r, c') ∧ WF c' ∧ c'.capacity = c.capacity := by
  obtain ⟨ρ, hInv⟩ := h
  rcases hlk : lookupA c.map k with _ | a
  · exact ⟨none, c, get_miss_spec hlk, ⟨ρ, hInv⟩, rfl⟩
  · obtain ⟨ρ₁, vK, ρ₂, hρ⟩ := split_of_lookup hInv hlk
    subst hρ
    obtain ⟨c', h1, h2, -, hcap, -⟩ := get_hit_spec hInv hlk
    exact ⟨some vK, c', h1, ⟨_, h2⟩, hcap⟩

theorem runOps_wf_aux {V : Type} {c : LRUCache V} {ops : List (Op V)}
    {cF : LRUCache V} (h : WF c) (hrun : runOps c ops = some cF) :
    WF cF ∧ cF.capacity = c.capacity := by
  induction ops generalizing c with
  | nil =>
    rw [runOps] at hrun
    cases hrun
    exact ⟨h, rfl⟩
  | cons op rest ih =>
    rcases op with k | ⟨k, v⟩
    · obtain ⟨r, c', hstep, hwf, hcap⟩ := get_wf h k
      rw [runOps] at hrun
      simp only [hstep, Option.map_some', Option.bind_eq_bind, Option.some_bind]
        at hrun
      obtain ⟨hw, hc⟩ := ih hwf hrun
      exact ⟨hw, hc.trans hcap⟩
    · obtain ⟨r, c', hstep, hwf, hcap⟩ := insert_wf h k v
      rw [runOps] at hrun
      simp only [hstep, Option.map_some', Option.bind_eq_bind, Option.some_bind]
        at hrun
      obtain ⟨hw, hc⟩ := ih hwf hrun
      exact ⟨hw, hc.trans hcap⟩

/-- Every completed run from a fresh cache ends in a well-formed state, with
the capacity unchanged. -/
theorem runOps_wf {V : Type} {cap : Nat} {ops : List (Op V)} {c : LRUCache V}
    (h : runOps (LRUCache.new cap) ops = some c) : WF c ∧ c.capacity = cap :=
  runOps_wf_aux ⟨[], Inv_new cap⟩ h


theorem map_snd_middle {V : Type} (ρ₁ ρ₂ : List (Nat × Key × V)) (a : Nat)
    (k : Key) (v : V) :
    (ρ₁ ++ (a, k, v) :: ρ₂).map Prod.snd =
      ρ₁.map Prod.snd ++ (k, v) :: ρ₂.map Prod.snd := by
  simp

theorem map_snd_fst {V : Type} (ρ : List (Nat × Key × V)) :
    (ρ.map Prod.snd).map Prod.fst = ρ.map keyOf := by
  rw [List.map_map]
  rfl

theorem keyAt_of_vals {V : Type} {σ : Mem (LRUEntry V)} {p : Nat × Key × V}
    (h : valAt σ p.1 = some ⟨p.2.1, p.2.2⟩) : keyAt σ p.1 = p.2.1 := by
  obtain ⟨nd, hnd, hval⟩ := read_of_valAt h
  rw [keyAt, hnd]
  simp [hval]

/-- Every successful `insert` ends with the new record at the front of the
logical content. -/
theorem insert_front_inv {V : Type} {c : LRUCache V} {ρ : List (Nat × Key × V)}
    (hInv : Inv c ρ) (k : Key) (v : V) :
    ∃ r c' ρr, c.insert k v = some (r, c') ∧
      Inv c' ((c.mem.fresh, k, v) :: ρr) ∧ c'.capacity = c.capacity := by
  rcases hlk : lookupA c.map k with _ | a
  · by_cases hge : c.list.length ≥ c.capacity
    · rcases List.eq_nil_or_concat ρ with rfl | ⟨ρ₀, p, hρ⟩
      · obtain ⟨c', h1, h2, -, hcap, -⟩ := insert_miss_empty_spec hInv hlk hge v
        exact ⟨none, c', [], h1, h2, hcap⟩
      · rw [List.concat_eq_append] at hρ
        subst hρ
        obtain ⟨t, kT, vT⟩ := p
        obtain ⟨c', h1, h2, -, hcap, -⟩ := insert_miss_evict_spec hInv hlk hge v
        exact ⟨some vT, c', ρ₀, h1, h2, hcap⟩
    · obtain ⟨c', h1, h2, -, hcap, -⟩ := insert_miss_noevict_spec hInv hlk
        (by omega) v
      exact ⟨none, c', ρ, h1, h2, hcap⟩
  · obtain ⟨ρ₁, vOld, ρ₂, hρ⟩ := split_of_lookup hInv hlk
    subst hρ
    obtain ⟨c', h1, h2, -, hcap, -⟩ := insert_hit_spec hInv hlk v
    exact ⟨some vOld, c', ρ₁ ++ ρ₂, h1, h2, hcap⟩

/-- `get` on the key of the front record returns its value. -/
theorem get_front_value {V : Type} {c : LRUCache V} {ρr : List (Nat × Key × V)}
    {f : Nat} {k : Key} {v : V} (hInv : Inv c ((f, k, v) :: ρr)) :
    getRes c k = some (some v) := by
  have hmem : (f, k, v) ∈ (f, k, v) :: ρr := List.mem_cons_self _ _
  have hk : lookupA c.map k = some f := (lookup_inv hInv).mpr ⟨v, hmem⟩
  have hInv' : Inv c ([] ++ (f, k, v) :: ρr) := hInv
  obtain ⟨c', h1, -⟩ := get_hit_spec hInv' hk
  rw [getRes, h1]
  rfl

/-- The state reached by a concrete run (the fresh cache if the run failed,
which never happens from reachable states). -/
def afterOps {V : Type} (cap : Nat) (ops : List (Op V)) : LRUCache V :=
  (runOps (LRUCache.new cap) ops).getD (LRUCache.new cap)

/-! ### Claim theorems -/

/-- Claim C1, counterexample: with capacity 0, a single insert yields a
reachable state whose recency-list length and index size are both 1, which
exceeds the capacity — refuting the claim's bound `length = size ≤ capacity`
for *every* capacity (the code's eviction guard `length >= capacity` fires on
the empty list and evicts nothing). -/
theorem C1_counterexample :
    (runOps (LRUCache.new 0) [Op.ins [0] (0 : Nat)]).map
      (fun c => (c.list.length, c.map.length, c.capacity)) = some (1, 1, 0) ∧
    ¬ ((1 : Nat) ≤ 0) := by
  exact ⟨by decide, by decide⟩

/-- Claim C1, amended: after every completed operation sequence the recency
list's length equals the number of index entries, and both are at most
`max capacity 1`; in particular they are at most the capacity whenever the
capacity is positive. -/
theorem C1_invariant {V : Type} (cap : Nat) (ops : List (Op V)) (c : LRUCache V)
    (h : runOps (LRUCache.new cap) ops = some c) :
    c.list.length = c.map.length ∧ c.list.length ≤ max cap 1 ∧
    (0 < cap → c.list.length ≤ cap) := by
  obtain ⟨⟨ρ, hInv⟩, hcap⟩ := runOps_wf h
  have h1 : c.list.length = ρ.length := by
    have h2 := hInv.rep.len
    rwa [List.length_map] at h2
  have h2 : c.map.length = ρ.length := by
    have h3 := hInv.perm.length_eq
    rwa [List.length_map] at h3
  have h3 := hInv.lenB
  rw [hcap] at h3
  exact ⟨by rw [h1, h2], by omega, fun hpos => by omega⟩

def w1ops : List (Op Nat) := [Op.ins [0] 1, Op.get [0], Op.ins [1] 2, Op.ins [2] 3]

theorem C1_witness :
    (afterOps 2 w1ops).list.length = (afterOps 2 w1ops).map.length ∧
    (afterOps 2 w1ops).list.length ≤ max 2 1 ∧
    (0 < 2 → (afterOps 2 w1ops).list.length ≤ 2) :=
  C1_invariant 2 w1ops (afterOps 2 w1ops) (by decide)

/-- Claim C10: for every capacity, including 0, the recency list's length
after every completed operation sequence is at most `max capacity 1`. -/
theorem C10_length_bound {V : Type} (cap : Nat) (ops : List (Op V))
    (c : LRUCache V) (h : runOps (LRUCache.new cap) ops = some c) :
    c.list.length ≤ max cap 1 := by
  obtain ⟨⟨ρ, hInv⟩, hcap⟩ := runOps_wf h
  have h1 : c.list.length = ρ.length := by
    have h2 := hInv.rep.len
    rwa [List.length_map] at h2
  have h3 := hInv.lenB
  rw [hcap] at h3
  omega

def w10ops : List (Op Nat) := [Op.ins [0] 1, Op.ins [1] 2]

theorem C10_witness : (afterOps 0 w10ops).list.length ≤ max 0 1 :=
  C10_length_bound 0 w10ops (afterOps 0 w10ops) (by decide)

/-- Claim C3, counterexample: `LRUCache::new(0)` is accepted (no
construction-time error exists), and an insert into the capacity-zero cache
is *not* followed by eviction of its own entry: the inserted value is
retrieved by the next `get` — refuting both disjuncts of the claim. -/
theorem C3_counterexample :
    ((LRUCache.new 0).insert [7] (5 : Nat)).bind (fun r => getRes r.2 [7]) =
      some (some 5) := by
  decide

/-- Claim C3, amended: `LRUCache::new` accepts capacity zero without error,
and a capacity-zero cache behaves as a one-entry cache: every insert leaves
exactly one entry (the one just inserted, evicting any previous entry), and
the inserted value is retrievable by an immediately following `get`. -/
theorem C3_capacity_zero {V : Type} (ops : List (Op V)) (c : LRUCache V)
    (k : Key) (v : V) (h : runOps (LRUCache.new 0) ops = some c) :
    ∃ r c', c.insert k v = some (r, c') ∧ c'.list.length = 1 ∧
      getRes c' k = some (some v) := by
  obtain ⟨⟨ρ, hInv⟩, hcap⟩ := runOps_wf h
  obtain ⟨r, c', ρr, h1, h2, hcap'⟩ := insert_front_inv hInv k v
  refine ⟨r, c', h1, ?_, get_front_value h2⟩
  have hlen : c'.list.length = ρr.length + 1 := by
    have h3 := h2.rep.len
    rwa [List.map_cons, List.length_cons, List.length_map] at h3
  have hb := h2.lenB
  rw [hcap', hcap, List.length_cons] at hb
  omega

def w3ops : List (Op Nat) := [Op.ins [0] 1]

theorem C3_witness :
    ∃ r c', (afterOps 0 w3ops).insert [4] 6 = some (r, c') ∧
      c'.list.length = 1 ∧ getRes c' [4] = some (some 6) :=
  C3_capacity_zero w3ops (afterOps 0 w3ops) [4] 6 (by decide)

/-- Claim C7: from any reachable state not exceeding its capacity,
`insert(k, v)` immediately followed by `get(k)` returns `v`. -/
theorem C7_roundtrip {V : Type} (cap : Nat) (ops : List (Op V)) (c : LRUCache V)
    (k : Key) (v : V) (h : runOps (LRUCache.new cap) ops = some c)
    (hle : c.list.length ≤ c.capacity) :
    ∃ r c', c.insert k v = some (r, c') ∧ getRes c' k = some (some v) := by
  obtain ⟨⟨ρ, hInv⟩, -⟩ := runOps_wf h
  obtain ⟨r, c', ρr, h1, h2, -⟩ := insert_front_inv hInv k v
  exact ⟨r, c', h1, get_front_value h2⟩

def w7ops : List (Op Nat) := [Op.ins [0] 1, Op.ins [1] 2]

theorem C7_witness :
    ∃ r c', (afterOps 3 w7ops).insert [5] 42 = some (r, c') ∧
      getRes c' [5] = some (some 42) :=
  C7_roundtrip 3 w7ops (afterOps 3 w7ops) [5] 42 (by decide) (by decide)

/-- Claim C2: from any reachable state in which `k` is absent and the list is
exactly at (positive-implied) capacity with a least-recently-used tail entry
`(kT, vT)`, `insert(k, v)` evicts exactly that tail entry — the observable
content becomes the new entry followed by everything except the old tail —
removes `kT` from the index, records `k`, and returns the evicted value. -/
theorem C2_eviction {V : Type} (cap : Nat) (ops : List (Op V)) (c : LRUCache V)
    (k kT : Key) (vT v : V) (h : runOps (LRUCache.new cap) ops = some c)
    (habs : lookupA c.map k = none) (hfull : c.list.length = c.capacity)
    (htail : c.entriesInOrder.getLast? = some (kT, vT)) :
    ∃ c', c.insert k v = some (some vT, c') ∧
      c'.entriesInOrder = (k, v) :: c.entriesInOrder.dropLast ∧
      lookupA c'.map kT = none ∧ lookupA c'.map k = some c.mem.fresh := by
  obtain ⟨⟨ρ, hInv⟩, -⟩ := runOps_wf h
  have hkρ : k ∉ ρ.map keyOf := (lookup_none_inv hInv).mp habs
  rw [entriesInOrder_of_inv hInv] at htail
  rcases List.eq_nil_or_concat ρ with rfl | ⟨ρ₀, p, hρ⟩
  · simp at htail
  · rw [List.concat_eq_append] at hρ
    subst hρ
    obtain ⟨t, kq, vq⟩ := p
    have hmapsnd : (ρ₀ ++ [(t, kq, vq)]).map Prod.snd =
        ρ₀.map Prod.snd ++ [(kq, vq)] := by simp
    rw [hmapsnd, List.getLast?_concat] at htail
    have htail' : ((kq, vq) : Key × V) = (kT, vT) := Option.some.inj htail
    cases htail'
    have hge : c.list.length ≥ c.capacity := hfull ▸ Nat.le_refl _
    have hkN := hInv.keysN
    rw [List.map_append, List.nodup_append] at hkN
    obtain ⟨-, -, hdisjK⟩ := hkN
    have hkTρ₀ : kT ∉ ρ₀.map keyOf := fun hx => hdisjK hx (by simp)
    have hkTk : kT ≠ k := by
      intro he
      refine hkρ ?_
      rw [List.map_append, ← he]
      exact List.mem_append_right _ (by simp)
    obtain ⟨c', h1, h2, hmap', hcap', hlen', hhead', hfresh'⟩ :=
      insert_miss_evict_spec hInv habs hge v
    refine ⟨c', h1, ?_, ?_, ?_⟩
    · rw [entriesInOrder_of_inv h2, entriesInOrder_of_inv hInv, hmapsnd,
        List.dropLast_concat, List.map_cons]
    · refine (lookup_none_inv h2).mpr ?_
      rw [List.map_cons, keyOf_mk]
      intro hx
      rcases List.mem_cons.mp hx with he | hm
      · exact hkTk he
      · exact hkTρ₀ hm
    · exact (lookup_inv h2).mpr ⟨v, List.mem_cons_self _ _⟩

def w2ops : List (Op Nat) := [Op.ins [0] 1, Op.ins [1] 2]

theorem C2_witness :
    ∃ c', (afterOps 2 w2ops).insert [2] 9 = some (some 1, c') ∧
      c'.entriesInOrder = ([2], 9) :: (afterOps 2 w2ops).entriesInOrder.dropLast ∧
      lookupA c'.map [0] = none ∧
      lookupA c'.map [2] = some (afterOps 2 w2ops).mem.fresh :=
  C2_eviction 2 w2ops (afterOps 2 w2ops) [2] [0] 1 9 (by decide) (by decide)
    (by decide) (by decide)

/-- Claim C4: after `get(k)` or `insert(k, w)` on a present key `k`, `k`'s
entry is the most-recently-used (rank 0, the head of the observable entry
sequence), and the relative order of all other entries is exactly as before
the operation. -/
theorem C4_recency {V : Type} (cap : Nat) (ops : List (Op V)) (c : LRUCache V)
    (k : Key) (vK w : V) (h : runOps (LRUCache.new cap) ops = some c)
    (hpresent : (k, vK) ∈ c.entriesInOrder) :
    (getCache c k).map LRUCache.entriesInOrder =
      some ((k, vK) :: c.entriesInOrder.filter (fun p => decide (p.1 ≠ k))) ∧
    (insCache c k w).map LRUCache.entriesInOrder =
      some ((k, w) :: c.entriesInOrder.filter (fun p => decide (p.1 ≠ k))) := by
  obtain ⟨⟨ρ, hInv⟩, -⟩ := runOps_wf h
  rw [entriesInOrder_of_inv hInv] at hpresent
  obtain ⟨p, hp, hpe⟩ := List.mem_map.mp hpresent
  obtain ⟨ρ₁, ρ₂, hρ⟩ := List.append_of_mem hp
  obtain ⟨a, kp, vp⟩ := p
  cases hpe
  subst hρ
  have hk : lookupA c.map k = some a := (lookup_inv hInv).mpr ⟨vK, by simp⟩
  have hkN := hInv.keysN
  rw [map_keyOf_middle, List.nodup_append, List.nodup_cons] at hkN
  obtain ⟨-, ⟨hkρ₂, -⟩, hdisjK⟩ := hkN
  have hkρ₁ : k ∉ ρ₁.map keyOf := fun hx => hdisjK hx (List.mem_cons_self _ _)
  have hf1 : k ∉ (ρ₁.map Prod.snd).map Prod.fst := by
    rw [map_snd_fst]
    exact hkρ₁
  have hf2 : k ∉ (ρ₂.map Prod.snd).map Prod.fst := by
    rw [map_snd_fst]
    exact hkρ₂
  have hfil : c.entriesInOrder.filter (fun p => decide (p.1 ≠ k)) =
      ρ₁.map Prod.snd ++ ρ₂.map Prod.snd := by
    rw [entriesInOrder_of_inv hInv, map_snd_middle, List.filter_append,
      List.filter_cons_of_neg (by simp), filter_ne_key_eq_self hf1,
      filter_ne_key_eq_self hf2]
  constructor
  · obtain ⟨c', h1, h2, -⟩ := get_hit_spec hInv hk
    rw [getCache, h1, Option.map_some', Option.map_some',
      entriesInOrder_of_inv h2, List.map_cons, List.map_append, hfil]
  · obtain ⟨c', h1, h2, -⟩ := insert_hit_spec hInv hk w
    rw [insCache, h1, Option.map_some', Option.map_some',
      entriesInOrder_of_inv h2, List.map_cons, List.map_append, hfil]

def w4ops : List (Op Nat) := [Op.ins [0] 1, Op.ins [1] 2, Op.ins [2] 3]

theorem C4_witness :
    (getCache (afterOps 3 w4ops) [1]).map LRUCache.entriesInOrder =
      some (([1], 2) :: (afterOps 3 w4ops).entriesInOrder.filter
        (fun p => decide (p.1 ≠ [1]))) ∧
    (insCache (afterOps 3 w4ops) [1] 7).map LRUCache.entriesInOrder =
      some (([1], 7) :: (afterOps 3 w4ops).entriesInOrder.filter
        (fun p => decide (p.1 ≠ [1]))) :=
  C4_recency 3 w4ops (afterOps 3 w4ops) [1] 2 7 (by decide) (by decide)

theorem lookupA_hmInsert_self {α : Type} (m : List (Key × α)) (k : Key) (x : α) :
    lookupA (hmInsert m k x) k = some x := by
  rw [hmInsert]
  simp [lookupA]

/-- Claim C5: `insert(k, v_new)` on a key present with value `v_old` returns
`v_old`; the old node is removed and a fresh front node holds `v_new` (all
other entries keep their relative order, so nothing is evicted); the list
length is unchanged; and the index entry for `k` is updated to the new
node's handle, which is the new head of the list. -/
theorem C5_update {V : Type} (cap : Nat) (ops : List (Op V)) (c : LRUCache V)
    (k : Key) (vOld vNew : V) (h : runOps (LRUCache.new cap) ops = some c)
    (hpresent : (k, vOld) ∈ c.entriesInOrder) :
    insRes c k vNew = some (some vOld) ∧
    (insCache c k vNew).map LRUCache.entriesInOrder =
      some ((k, vNew) :: c.entriesInOrder.filter (fun p => decide (p.1 ≠ k))) ∧
    (insCache c k vNew).map (fun c' => c'.list.length) = some c.list.length ∧
    (insCache c k vNew).map (fun c' => lookupA c'.map k) =
      some (some c.mem.fresh) ∧
    (insCache c k vNew).map (fun c' => c'.list.head) =
      some (some c.mem.fresh) := by
  obtain ⟨⟨ρ, hInv⟩, -⟩ := runOps_wf h
  rw [entriesInOrder_of_inv hInv] at hpresent
  obtain ⟨p, hp, hpe⟩ := List.mem_map.mp hpresent
  obtain ⟨ρ₁, ρ₂, hρ⟩ := List.append_of_mem hp
  obtain ⟨a, kp, vp⟩ := p
  cases hpe
  subst hρ
  have hk : lookupA c.map k = some a := (lookup_inv hInv).mpr ⟨vOld, by simp⟩
  have hkN := hInv.keysN
  rw [map_keyOf_middle, List.nodup_append, List.nodup_cons] at hkN
  obtain ⟨-, ⟨hkρ₂, -⟩, hdisjK⟩ := hkN
  have hkρ₁ : k ∉ ρ₁.map keyOf := fun hx => hdisjK hx (List.mem_cons_self _ _)
  have hf1 : k ∉ (ρ₁.map Prod.snd).map Prod.fst := by
    rw [map_snd_fst]
    exact hkρ₁
  have hf2 : k ∉ (ρ₂.map Prod.snd).map Prod.fst := by
    rw [map_snd_fst]
    exact hkρ₂
  have hfil : c.entriesInOrder.filter (fun p => decide (p.1 ≠ k)) =
      ρ₁.map Prod.snd ++ ρ₂.map Prod.snd := by
    rw [entriesInOrder_of_inv hInv, map_snd_middle, List.filter_append,
      List.filter_cons_of_neg (by simp), filter_ne_key_eq_self hf1,
      filter_ne_key_eq_self hf2]
  obtain ⟨c', h1, h2, hmap', hcap', hlen', hhead', hfresh'⟩ :=
    insert_hit_spec hInv hk vNew
  refine ⟨?_, ?_, ?_, ?_, ?_⟩
  · rw [insRes, h1, Option.map_some']
  · rw [insCache, h1, Option.map_some', Option.map_some',
      entriesInOrder_of_inv h2, List.map_cons, List.map_append, hfil]
  · rw [insCache, h1, Option.map_some', Option.map_some', hlen']
  · rw [insCache, h1, Option.map_some', Option.map_some', hmap',
      lookupA_hmInsert_self]
  · rw [insCache, h1, Option.map_some', Option.map_some', hhead']

def w5ops : List (Op Nat) := [Op.ins [0] 1, Op.ins [1] 2, Op.ins [2] 3]

theorem C5_witness :
    insRes (afterOps 3 w5ops) [0] 4 = some (some 1) ∧
    (insCache (afterOps 3 w5ops) [0] 4).map LRUCache.entriesInOrder =
      some (([0], 4) :: (afterOps 3 w5ops).entriesInOrder.filter
        (fun p => decide (p.1 ≠ [0]))) ∧
    (insCache (afterOps 3 w5ops) [0] 4).map (fun c' => c'.list.length) =
      some (afterOps 3 w5ops).list.length ∧
    (insCache (afterOps 3 w5ops) [0] 4).map (fun c' => lookupA c'.map [0]) =
      some (some (afterOps 3 w5ops).mem.fresh) ∧
    (insCache (afterOps 3 w5ops) [0] 4).map (fun c' => c'.list.head) =
      some (some (afterOps 3 w5ops).mem.fresh) :=
  C5_update 3 w5ops (afterOps 3 w5ops) [0] 1 4 (by decide) (by decide)

/-- Claim C6: in every reachable state the index and recency list agree
exactly: every node reached by list traversal is registered in the index
under its own key with its own handle; every index entry points to a
traversed node whose stored key matches; and no key occurs at two nodes. -/
theorem C6_index_list_coherence {V : Type} (cap : Nat) (ops : List (Op V))
    (c : LRUCache V) (h : runOps (LRUCache.new cap) ops = some c) :
    (∀ a ∈ c.addrs, lookupA c.map (keyAt c.mem a) = some a) ∧
    (∀ k a, lookupA c.map k = some a → a ∈ c.addrs ∧ keyAt c.mem a = k) ∧
    (c.addrs.map (keyAt c.mem)).Nodup := by
  obtain ⟨⟨ρ, hInv⟩, -⟩ := runOps_wf h
  have haddrs := addrs_of_inv hInv
  have hkey : ∀ p ∈ ρ, keyAt c.mem p.1 = p.2.1 := fun p hp =>
    keyAt_of_vals (hInv.vals p hp)
  refine ⟨?_, ?_, ?_⟩
  · intro a ha
    rw [haddrs] at ha
    obtain ⟨p, hp, rfl⟩ := List.mem_map.mp ha
    rw [hkey p hp]
    refine (lookup_inv hInv).mpr ⟨p.2.2, ?_⟩
    have he : (p.1, p.2.1, p.2.2) = p := by simp
    rw [he]
    exact hp
  · intro k a hka
    obtain ⟨v, hv⟩ := (lookup_inv hInv).mp hka
    constructor
    · rw [haddrs]
      exact List.mem_map_of_mem Prod.fst hv
    · have hh := hkey (a, k, v) hv
      simpa using hh
  · rw [haddrs, List.map_map]
    have h2 : ρ.map (keyAt c.mem ∘ Prod.fst) = ρ.map keyOf :=
      List.map_congr_left (fun p hp => hkey p hp)
    rw [h2]
    exact hInv.keysN

def w6ops : List (Op Nat) := [Op.ins [0] 1, Op.ins [1] 2, Op.get [0], Op.ins [2] 3]

theorem C6_witness :
    (∀ a ∈ (afterOps 2 w6ops).addrs,
      lookupA (afterOps 2 w6ops).map (keyAt (afterOps 2 w6ops).mem a) = some a) ∧
    (∀ k a, lookupA (afterOps 2 w6ops).map k = some a →
      a ∈ (afterOps 2 w6ops).addrs ∧ keyAt (afterOps 2 w6ops).mem a = k) ∧
    ((afterOps 2 w6ops).addrs.map (keyAt (afterOps 2 w6ops).mem)).Nodup :=
  C6_index_list_coherence 2 w6ops (afterOps 2 w6ops) (by decide)

/-- Claim C8 is violated by the code: under the liveness-checked heap
semantics, after `insert([0], 5)` into a fresh capacity-2 cache the key is
present in the index (its handle is address 0), yet `get([0])` dereferences
a freed node: `LinkedList::remove` frees the node via `Box::from_raw`, and
`reinsert_front` then passes that same freed handle to `insert_front_raw`,
which dereferences and re-links it.  The checked run therefore aborts
(`none`) where the claim says no freed handle is ever dereferenced. -/
theorem C8_use_after_free :
    (((LRUCacheC.new 2).insert [0] (5 : Nat)).map
      (fun p => lookupA p.2.map [0])) = some (some 0) ∧
    (((LRUCacheC.new 2).insert [0] (5 : Nat)).bind (fun p => p.2.get [0])) =
      none := by
  exact ⟨by decide, by decide⟩

/-- Claim C9 is violated by the code: `build_max_heap [2, 1]` returns
`[1, 2]`, which is not in non-increasing order (the repository's own test
expects fully descending output on its sample).  The cause: `sift_down`
treats `end` as an exclusive bound, and every call passes `l - 1`, so the
last element never participates in heap construction. -/
theorem C9_heapsort_not_sorted :
    HeapSort.build_max_heap [2, 1] = [1, 2] ∧
    ¬ List.Sorted (fun x y : Nat => x ≥ y) (HeapSort.build_max_heap [2, 1]) := by
  have h1 : HeapSort.sift_down [2, 1] 0 1 = [2, 1] := by
    rw [HeapSort.sift_down]
    norm_num [HeapSort.pick]
  have h2 : HeapSort.sift_down [1, 2] 0 1 = [1, 2] := by
    rw [HeapSort.sift_down]
    norm_num [HeapSort.pick]
  have hb : HeapSort.build_max_heap [2, 1] = [1, 2] := by
    simp [HeapSort.build_max_heap, List.range_succ, HeapSort.swapL, h1, h2]
  refine ⟨hb, ?_⟩
  rw [hb]
  intro hs
  have h12 : (1 : Nat) ≥ 2 := List.rel_of_sorted_cons hs 2 (by simp)
  omega

end DSA
